import Mathlib

/-!
Verification of the `linkup` link checker (src/linkup.go).

The Go code builds a rooted tree of `fsEntity` nodes connected by pointers
(child map and parent back-pointer).  We embed the heap shallowly: a store is a
`List FSEntity`, a pointer is the index (`Nat`) of a node in that store, and a
nil pointer is `Option.none`.  Go maps (`children`, `ids`) become association
lists whose lookup is the first matching key, and insertion of a fresh key
appends; this matches Go map behaviour because keys are unique by construction.
Go string-library calls are modelled by executable Lean functions on the
character list of the string (`'#'` and `'/'` are one-byte characters, so Go's
byte indices coincide with character positions at every point the code splits).
-/

/-- Model of Go `fsEntity` (src/linkup.go:31).  `children` maps a segment name
to the index of the child node; `parent` is the index of the parent node
(`none` for the root); `ids` is the identifier multiset `map[string]int`;
`hrefs` is the ordered list of extracted references. -/
structure FSEntity where
  name : String
  fullname : String
  directory : Bool
  children : List (String × Nat)
  parent : Option Nat
  ids : List (String × Nat)
  hrefs : List String
deriving DecidableEq, Repr

/-- Model of Go `Website` (src/linkup.go:43): the store of all allocated
entities; the root is always the node at index 0. -/
structure Website where
  store : List FSEntity
deriving DecidableEq, Repr

/-- Go `strings.Split(s, "/")`: splits on every `'/'`, keeping empty pieces.
`acc` holds the characters of the current piece in reverse. -/
def splitSlashAux : List Char → List Char → List String
  | [], acc => [String.mk acc.reverse]
  | ch :: rest, acc =>
    if ch == '/' then String.mk acc.reverse :: splitSlashAux rest []
    else splitSlashAux rest (ch :: acc)

/-- Go `strings.Split(path, "/")` as used by `newFSEntity` (src/linkup.go:319). -/
def splitSlash (s : String) : List String :=
  splitSlashAux s.data []

/-- Go `unicode.IsSpace`: the characters with the Unicode White_Space
property, which is what Go's `unicode.White_Space` range table contains
(U+0009-U+000D, U+0020, U+0085, U+00A0, U+1680, U+2000-U+200A, U+2028,
U+2029, U+202F, U+205F, U+3000). -/
def isSpaceGo (ch : Char) : Bool :=
  [' ', '\t', '\n', '\x0b', '\x0c', '\r', '\x85', '\xa0', '\u1680',
    '\u2000', '\u2001', '\u2002', '\u2003', '\u2004', '\u2005', '\u2006',
    '\u2007', '\u2008', '\u2009', '\u200a', '\u2028', '\u2029', '\u202f',
    '\u205f', '\u3000'].contains ch

/-- Go `strings.TrimSpace` (src/linkup.go:197): drop white space from both
ends of the string. -/
def goTrimSpace (s : String) : String :=
  String.mk (((s.data.dropWhile isSpaceGo).reverse.dropWhile isSpaceGo).reverse)

/-- Go `strings.Replace(href, "\\", "/", -1)` (src/linkup.go:198): the pattern
is the single character `'\\'`, so replacing every occurrence is a map over
the characters. -/
def normSlashes (s : String) : String :=
  String.mk (s.data.map fun ch => if ch == '\\' then '/' else ch)

/-- Go `strings.HasPrefix`. -/
def hasPrefixGo (s pre : String) : Bool :=
  pre.data.isPrefixOf s.data

/-- Go `strings.LastIndex(s, "#")` together with the two slices the validator
takes around it: `some (pre, post)` means `s = pre ++ '#' :: post` with no
`'#'` in `post` (so the `'#'` between them is the last one); `none` means `s`
contains no `'#'`.  `pre = []` corresponds to `LastIndex == 0`. -/
def splitAtLastHash : List Char → Option (List Char × List Char)
  | [] => none
  | ch :: rest =>
    match splitAtLastHash rest with
    | some (pre, post) => some (ch :: pre, post)
    | none => if ch == '#' then some ([], rest) else none

/-- Go `allocateFSEntity` (src/linkup.go:269): fresh node with empty maps. -/
def allocateFSEntity (name : String) : FSEntity :=
  { name := name, fullname := "", directory := false, children := []
    parent := none, ids := [], hrefs := [] }

/-- Go `calcFullName` (src/linkup.go:277): walk the parent chain upwards,
prepending each visited node's name while that node has a parent.  The Go loop
follows pointers; here `fuel` bounds the chain length (any store built by the
registration functions is acyclic and `fuel = store.length` suffices). -/
def calcFullName (store : List FSEntity) : Nat → Option Nat → String → String
  | _, none, acc => acc
  | 0, some _, acc => acc
  | fuel + 1, some i, acc =>
    match store.get? i with
    | none => acc
    | some e =>
      match e.parent with
      | none => acc
      | some _ =>
        calcFullName store fuel e.parent
          (if acc.length == 0 then e.name else e.name ++ "/" ++ acc)

/-- Go `createFSEntity` (src/linkup.go:291).  Returns the updated store and
the created (or, for an exhausted component list, the reached) node, `none`
when the walk runs into a non-directory node.  Mirrors the source: an existing
child is entered, a missing child is allocated with its parent pointer,
full name and (for a non-final segment) directory flag set, and registered in
the parent's child map. -/
def createFSEntity (store : List FSEntity) (parentId : Nat) :
    List String → List FSEntity × Option Nat
  | [] => (store, some parentId)
  | comp :: rest =>
    match store.get? parentId with
    | none => (store, none)
    | some parent =>
      if parent.directory then
        match parent.children.lookup comp with
        | some childId => createFSEntity store childId rest
        | none =>
          let childId := store.length
          let child : FSEntity :=
            { name := comp
              fullname := calcFullName store store.length (some parentId) comp
              directory := !rest.isEmpty
              children := []
              parent := some parentId
              ids := []
              hrefs := [] }
          let store2 :=
            (store ++ [child]).set parentId
              { parent with children := parent.children ++ [(comp, childId)] }
          if rest.isEmpty then (store2, some childId)
          else createFSEntity store2 childId rest
      else (store, none)

/-- Go `newFSEntity` (src/linkup.go:318): split on `'/'` (keeping empty
segments) and create from the root, which is the node at index 0. -/
def newFSEntity (store : List FSEntity) (path : String) : List FSEntity × Option Nat :=
  createFSEntity store 0 (splitSlash path)

/-- Go `prepareFileName` (src/linkup.go:260): strip one leading `'/'`
(the leading rune is the one-byte `'/'`). -/
def prepareFileName (name : String) : String :=
  if hasPrefixGo name "/" then String.mk (name.data.drop 1) else name

/-- Go `New` (src/linkup.go:48): a store holding only the root directory. -/
def websiteNew : Website :=
  ⟨[{ allocateFSEntity "/" with directory := true }]⟩

/-- Go `Website.AddFile` (src/linkup.go:57): returns the updated website and
`some errorMessage` exactly when `newFSEntity` returned nil. -/
def addFile (w : Website) (name : String) : Website × Option String :=
  let name2 := prepareFileName name
  match newFSEntity w.store name2 with
  | (st, none) => (⟨st⟩, some ("file already registered with name \x27" ++ name2 ++ "\x27"))
  | (st, some _) => (⟨st⟩, none)

/-- Replace the node at index `i` by `f` applied to it (a Go write through an
`*fsEntity` pointer). -/
def updateEntity (store : List FSEntity) (i : Nat) (f : FSEntity → FSEntity) : List FSEntity :=
  match store.get? i with
  | none => store
  | some e => store.set i (f e)

/-- Overwrite the value stored under `key` in an association list. -/
def setAssoc : List (String × Nat) → String → Nat → List (String × Nat)
  | [], _, _ => []
  | (k, v) :: rest, key, val =>
    if k == key then (key, val) :: rest else (k, v) :: setAssoc rest key val

/-- Go `entity.ids[id]++` (src/linkup.go:123): a missing key starts from the
zero value of `int`. -/
def bumpId (ids : List (String × Nat)) (idv : String) : List (String × Nat) :=
  match ids.lookup idv with
  | none => ids ++ [(idv, 1)]
  | some n => setAssoc ids idv (n + 1)

/-- Go `Website.AddDocumentFromReader` (src/linkup.go:80).  Parsing the HTML
is delegated to the external goquery collaborator; the traversal's output is
taken as data: `hrefs` is the list of extracted reference strings in document
order and `idOccurrences` the list of `id` attribute values in document order.
The appends and counter bumps on the returned entity mirror lines 100-124. -/
def addDocumentFromReader (w : Website) (name : String)
    (hrefs : List String) (idOccurrences : List String) : Website × Option String :=
  let name2 := prepareFileName name
  match newFSEntity w.store name2 with
  | (st, none) => (⟨st⟩, some ("file already registered with name \x27" ++ name2 ++ "\x27"))
  | (st, some i) =>
    (⟨updateEntity st i fun e =>
        { e with hrefs := e.hrefs ++ hrefs
                 ids := idOccurrences.foldl bumpId e.ids }⟩, none)

/-- Go `splitPath` (src/linkup.go:168): split on `'/'` and keep only the
non-empty pieces. -/
def splitPath (path : String) : List String :=
  (splitSlash path).filter fun comp => comp.length > 0

/-- Go `isPathValid` (src/linkup.go:139), on a store: `none` plays the nil
pointer (both as argument and as result).  An empty component list returns
the node itself for a leaf and the first of `index.html`, `index.htm`,
`index.tmpl` found in the child map for a directory; a `".."` component moves
to the parent pointer; otherwise the walk follows the child map. -/
def isPathValid (store : List FSEntity) : Option Nat → List String → Option Nat
  | none, _ => none
  | some i, comps =>
    match store.get? i with
    | none => none
    | some e =>
      match comps with
      | [] =>
        if e.directory then
          match e.children.lookup "index.html" with
          | some c => some c
          | none =>
            match e.children.lookup "index.htm" with
            | some c => some c
            | none => e.children.lookup "index.tmpl"
        else some i
      | comp :: rest =>
        if comp == ".." then isPathValid store e.parent rest
        else
          match e.children.lookup comp with
          | some childId => isPathValid store (some childId) rest
          | none => none

/-- The identifier map of the node at index `i` (Go reads `targetEnt.ids`
through a pointer that is always valid; a dangling index yields the empty
map, which never occurs for stores built by registration). -/
def entityIds (store : List FSEntity) (i : Nat) : List (String × Nat) :=
  match store.get? i with
  | none => []
  | some e => e.ids

/-- Lines 231-254 of the validator loop body: resolve the path part of a
reference (from the root when it starts with `'/'`, from the page's parent
directory otherwise) and, when the reference carried a fragment, require the
fragment to be an identifier of the resolved target. -/
def resolveAndCheck (store : List FSEntity) (entity : FSEntity)
    (path : String) (frag : Option String) : List String :=
  let resolved :=
    if hasPrefixGo path "/" then isPathValid store (some 0) (splitPath path)
    else isPathValid store entity.parent (splitPath path)
  match resolved with
  | none =>
    [entity.fullname ++
      (if hasPrefixGo path "/" then ": broken link \x27" else ": broken relative link \x27") ++
      path ++ "\x27"]
  | some tid =>
    match frag with
    | none => []
    | some target =>
      if ((entityIds store tid).lookup target).isSome then []
      else [entity.fullname ++ ": broken target link \x27" ++ path ++ "#" ++ target ++ "\x27"]

/-- The body of the reference loop of Go `validate` (src/linkup.go:195-255)
for one raw reference.  `pingFn` is the external HTTP collaborator
(`none` = transport error, `some status` = response); the first component of
the result is the list of errors this reference contributes, the second the
list of URLs it probes (the source calls `ping` exactly where an element is
appended here). -/
def validateHref (pingFn : String → Option Nat) (store : List FSEntity)
    (entity : FSEntity) (href0 : String) : List String × List String :=
  let href := normSlashes (goTrimSpace href0)
  if hasPrefixGo href "http" then
    match pingFn href with
    | none =>
      ([entity.fullname ++ ": encountered error when pinging \x27" ++ href ++ "\x27"], [href])
    | some status =>
      if status != 200 then
        ([entity.fullname ++ ": encountered status code " ++ toString status ++
          " when pinging \x27" ++ href ++ "\x27"], [href])
      else ([], [href])
  else if href == "#" then
    ([entity.fullname ++ ": incomplete target \x27#\x27"], [])
  else if href == "/" then ([], [])
  else
    match splitAtLastHash href.data with
    | some (pre, post) =>
      if pre.isEmpty then
        -- hashIndex == 0: the fragment is the text after the leading '#'
        if ((entity.ids.lookup (String.mk post)).isSome) then ([], [])
        else ([entity.fullname ++ ": broken same page link \x27" ++ href ++ "\x27"], [])
      else
        -- hashIndex > 0: trim both slices around the last '#'
        (resolveAndCheck store entity (goTrimSpace (String.mk pre))
          (some (goTrimSpace (String.mk post))), [])
    | none => (resolveAndCheck store entity href none, [])

/-- Lines 189-193 of Go `validate`: report every identifier registered more
than once on the page. -/
def dupIdErrors (entity : FSEntity) : List String :=
  entity.ids.foldl
    (fun acc kv =>
      if kv.2 > 1 then
        acc ++ [entity.fullname ++ ": id \x27" ++ kv.1 ++ "\x27 appears " ++ toString kv.2 ++
          " times on the page (it should only appear once)"]
      else acc)
    []

/-- Go `validate` (src/linkup.go:179) on the node at index `i`.  The Go
function can reach entities through arbitrary pointers, so the store is
threaded through the traversal exactly as the mutable heap is in Go: every
branch returns the store it was given, because the source assigns to no
entity field.  `fuel` bounds the recursion depth (the Go recursion is over a
finite tree; any fuel at least the tree height gives the source behaviour). -/
def validateS (pingFn : String → Option Nat) :
    Nat → List FSEntity → Nat → List FSEntity × List String
  | 0, store, _ => (store, [])
  | fuel + 1, store, i =>
    match store.get? i with
    | none => (store, [])
    | some e =>
      if e.directory then
        e.children.foldl
          (fun acc ch =>
            let r := validateS pingFn fuel acc.1 ch.2
            (r.1, acc.2 ++ r.2))
          (store, [])
      else
        (store,
          dupIdErrors e ++
            e.hrefs.foldl (fun acc h => acc ++ (validateHref pingFn store e h).1) [])

/-- Go `Website.Validate` (src/linkup.go:135): run the validator from the
root.  The returned `Website` is the heap after the call. -/
def websiteValidate (pingFn : String → Option Nat) (fuel : Nat) (w : Website) :
    Website × List String :=
  let r := validateS pingFn fuel w.store 0
  (⟨r.1⟩, r.2)

/-- Pure child-map descent from node `i`: the walk `createFSEntity` performs
when every component already exists, and the walk `isPathValid` performs on a
component list that contains no `".."` (both follow `children` lookups). -/
def walk (store : List FSEntity) : Nat → List String → Option Nat
  | i, [] => some i
  | i, comp :: rest =>
    match store.get? i with
    | none => none
    | some e =>
      match e.children.lookup comp with
      | some j => walk store j rest
      | none => none

/-- `isStem a b`: the segment list `a` is a (not necessarily proper) initial
segment of `b`.  Two registered paths overlap exactly when one is a stem of
the other. -/
def isStem : List String → List String → Bool
  | [], _ => true
  | _ :: _, [] => false
  | a :: as2, b :: bs => a == b && isStem as2 bs

/-- Register a list of requests in order: a request `(path, none)` is a
`Website.AddFile` call (src/linkup.go:57-63) and a request
`(path, some (hrefs, idOccurrences))` is a `Website.AddDocumentFromReader`
call (src/linkup.go:80-131) whose external goquery parse yielded the given
reference strings and `id` attribute occurrences, in document order.  Each
step runs `prepareFileName` and then `newFSEntity` on the current store,
exactly as both methods do; when the registration is a document and
`newFSEntity` succeeded, `docApply` appends the extracted references and
bumps the id counters on the returned entity (lines 100-124).  Besides the final
website it records, for each request, the node `newFSEntity` produced (the
entity the registration created). -/
def docApply (r : List FSEntity × Option Nat)
    (doc : Option (List String × List String)) : List FSEntity :=
  match doc, r.2 with
  | some (hrefs, idOccurrences), some i =>
    updateEntity r.1 i fun e =>
      { e with hrefs := e.hrefs ++ hrefs, ids := idOccurrences.foldl bumpId e.ids }
  | _, _ => r.1

def registerAll : Website → List (String × Option (List String × List String)) →
    Website × List (Option Nat)
  | w, [] => (w, [])
  | w, (pth, doc) :: rest =>
    let r := newFSEntity w.store (prepareFileName pth)
    let out := registerAll ⟨docApply r doc⟩ rest
    (out.1, r.2 :: out.2)

/-- How a store `S2` extends a store `S` after `createFSEntity S pid (c :: rest)`
ran in creation mode (the name `c` was absent from the child map of the
directory at `pid`): the old nodes are untouched except that `pid` gained the
child edge `(c, S.length)`, and a fresh chain of `rest.length + 1` nodes hangs
below it, all directories except the last, each the single child of its
predecessor. -/
structure SpineOut (S : List FSEntity) (pid : Nat) (e : FSEntity) (c : String)
    (rest : List String) (S2 : List FSEntity) : Prop where
  len : S2.length = S.length + rest.length + 1
  old : ∀ j, j < S.length → j ≠ pid → S2.get? j = S.get? j
  atPid : S2.get? pid = some { e with children := e.children ++ [(c, S.length)] }
  chain : ∀ k, k ≤ rest.length →
    ∃ ent, S2.get? (S.length + k) = some ent ∧
      some ent.name = (c :: rest).get? k ∧
      ent.directory = decide (k < rest.length) ∧
      ent.parent = some (if k = 0 then pid else S.length + k - 1) ∧
      ent.children = (match (c :: rest).get? (k + 1) with
        | some nm => [(nm, S.length + k + 1)]
        | none => []) ∧
      ent.ids = [] ∧ ent.hrefs = []

/-- The shape invariant a store satisfies after registering the segment lists
`reg` (each the `strings.Split` of a registered path) on a fresh website,
provided no list in `reg` is a stem of another.  All clauses speak about
`walk` from the root. -/
structure TreeInv (S : List FSEntity) (reg : List (List String)) : Prop where
  rootOk : ∃ e, S.get? 0 = some e ∧ e.parent = none ∧ e.directory = true
  bounds : ∀ i e, S.get? i = some e → ∀ p ∈ e.children, p.2 < S.length
  valid : ∀ segs j, walk S 0 segs = some j → ∃ e, S.get? j = some e
  uniq : ∀ s1 s2 j, walk S 0 s1 = some j → walk S 0 s2 = some j → s1 = s2
  leaves : ∀ segs j e, walk S 0 segs = some j → S.get? j = some e →
    e.directory = false → segs ∈ reg
  dirs : ∀ segs j e, segs ≠ [] → walk S 0 segs = some j → S.get? j = some e →
    e.directory = true → ∃ q, q ∈ reg ∧ isStem segs q = true ∧ segs ≠ q
  regOk : ∀ q ∈ reg, ∃ j e, walk S 0 q = some j ∧ S.get? j = some e ∧
    e.directory = false

/-! ### Small-step equations for the recursive functions -/

theorem ipvNone (store : List FSEntity) (comps : List String) :
    isPathValid store none comps = none := by
  rw [isPathValid.eq_def]

theorem ipvUndef (store : List FSEntity) (i : Nat) (comps : List String)
    (h : store.get? i = none) : isPathValid store (some i) comps = none := by
  rw [isPathValid.eq_def]; dsimp only; rw [h]

theorem ipvLeaf (store : List FSEntity) (i : Nat) (e : FSEntity)
    (h : store.get? i = some e) (hd : e.directory = false) :
    isPathValid store (some i) [] = some i := by
  rw [isPathValid.eq_def]; dsimp only; rw [h]; simp [hd]

theorem ipvDirHtml (store : List FSEntity) (i c : Nat) (e : FSEntity)
    (h : store.get? i = some e) (hd : e.directory = true)
    (h1 : e.children.lookup "index.html" = some c) :
    isPathValid store (some i) [] = some c := by
  rw [isPathValid.eq_def]; dsimp only; rw [h]; simp [hd, h1]

theorem ipvDirHtm (store : List FSEntity) (i c : Nat) (e : FSEntity)
    (h : store.get? i = some e) (hd : e.directory = true)
    (h1 : e.children.lookup "index.html" = none)
    (h2 : e.children.lookup "index.htm" = some c) :
    isPathValid store (some i) [] = some c := by
  rw [isPathValid.eq_def]; dsimp only; rw [h]; simp [hd, h1, h2]

theorem ipvDirTmpl (store : List FSEntity) (i : Nat) (e : FSEntity)
    (h : store.get? i = some e) (hd : e.directory = true)
    (h1 : e.children.lookup "index.html" = none)
    (h2 : e.children.lookup "index.htm" = none) :
    isPathValid store (some i) [] = e.children.lookup "index.tmpl" := by
  rw [isPathValid.eq_def]; dsimp only; rw [h]; simp [hd, h1, h2]

theorem ipvDotdot (store : List FSEntity) (i : Nat) (e : FSEntity) (rest : List String)
    (h : store.get? i = some e) :
    isPathValid store (some i) (".." :: rest) = isPathValid store e.parent rest := by
  rw [isPathValid.eq_def]; dsimp only; rw [h]; simp

theorem ipvChild (store : List FSEntity) (i j : Nat) (e : FSEntity) (comp : String)
    (rest : List String) (h : store.get? i = some e) (hc : comp ≠ "..")
    (hl : e.children.lookup comp = some j) :
    isPathValid store (some i) (comp :: rest) = isPathValid store (some j) rest := by
  rw [isPathValid.eq_def]; dsimp only; rw [h]; simp [hc, hl]

theorem ipvChildNone (store : List FSEntity) (i : Nat) (e : FSEntity) (comp : String)
    (rest : List String) (h : store.get? i = some e) (hc : comp ≠ "..")
    (hl : e.children.lookup comp = none) :
    isPathValid store (some i) (comp :: rest) = none := by
  rw [isPathValid.eq_def]; dsimp only; rw [h]; simp [hc, hl]

theorem walkNil (store : List FSEntity) (i : Nat) : walk store i [] = some i := rfl

theorem walkUndef (store : List FSEntity) (i : Nat) (comp : String) (rest : List String)
    (h : store.get? i = none) : walk store i (comp :: rest) = none := by
  rw [walk.eq_def]; dsimp only; rw [h]

theorem walkChild (store : List FSEntity) (i j : Nat) (e : FSEntity) (comp : String)
    (rest : List String) (h : store.get? i = some e)
    (hl : e.children.lookup comp = some j) :
    walk store i (comp :: rest) = walk store j rest := by
  rw [walk.eq_def]; dsimp only; rw [h]; simp [hl]

theorem walkChildNone (store : List FSEntity) (i : Nat) (e : FSEntity) (comp : String)
    (rest : List String) (h : store.get? i = some e)
    (hl : e.children.lookup comp = none) :
    walk store i (comp :: rest) = none := by
  rw [walk.eq_def]; dsimp only; rw [h]; simp [hl]

theorem cfeNil (store : List FSEntity) (parentId : Nat) :
    createFSEntity store parentId [] = (store, some parentId) := rfl

theorem cfeUndef (store : List FSEntity) (parentId : Nat) (comp : String) (rest : List String)
    (h : store.get? parentId = none) :
    createFSEntity store parentId (comp :: rest) = (store, none) := by
  rw [createFSEntity.eq_def]; dsimp only; rw [h]

theorem cfeLeafStop (store : List FSEntity) (parentId : Nat) (e : FSEntity)
    (comp : String) (rest : List String) (h : store.get? parentId = some e)
    (hd : e.directory = false) :
    createFSEntity store parentId (comp :: rest) = (store, none) := by
  rw [createFSEntity.eq_def]; dsimp only; rw [h]; simp [hd]

theorem cfeExisting (store : List FSEntity) (parentId childId : Nat) (e : FSEntity)
    (comp : String) (rest : List String) (h : store.get? parentId = some e)
    (hd : e.directory = true) (hl : e.children.lookup comp = some childId) :
    createFSEntity store parentId (comp :: rest) = createFSEntity store childId rest := by
  rw [createFSEntity.eq_def]; dsimp only; rw [h]; simp [hd, hl]

theorem cfeFreshLast (store : List FSEntity) (parentId : Nat) (e : FSEntity)
    (comp : String) (h : store.get? parentId = some e)
    (hd : e.directory = true) (hl : e.children.lookup comp = none) :
    createFSEntity store parentId [comp] =
      ((store ++ [({ name := comp
                     fullname := calcFullName store store.length (some parentId) comp
                     directory := false, children := [], parent := some parentId
                     ids := [], hrefs := [] } : FSEntity)]).set parentId
          { e with children := e.children ++ [(comp, store.length)] },
        some store.length) := by
  rw [createFSEntity.eq_def]; dsimp only; rw [h]; simp [hd, hl]

theorem cfeFreshStep (store : List FSEntity) (parentId : Nat) (e : FSEntity)
    (comp comp2 : String) (rest2 : List String) (h : store.get? parentId = some e)
    (hd : e.directory = true) (hl : e.children.lookup comp = none) :
    createFSEntity store parentId (comp :: comp2 :: rest2) =
      createFSEntity
        ((store ++ [({ name := comp
                       fullname := calcFullName store store.length (some parentId) comp
                       directory := true, children := [], parent := some parentId
                       ids := [], hrefs := [] } : FSEntity)]).set parentId
            { e with children := e.children ++ [(comp, store.length)] })
        store.length (comp2 :: rest2) := by
  rw [createFSEntity.eq_def]; dsimp only; rw [h]; simp [hd, hl]

/-! ### Basic list-index and association-list lemmas -/

theorem lget_some_lt {α : Type} : ∀ (l : List α) (n : Nat) (a : α),
    l.get? n = some a → n < l.length := by
  intro l
  induction l with
  | nil => intro n a h; cases n <;> exact absurd h (by simp)
  | cons x xs ih =>
    intro n a h
    cases n with
    | zero => exact Nat.succ_le_succ (Nat.zero_le _)
    | succ m => exact Nat.succ_lt_succ (ih m a h)

theorem lget_append_lt {α : Type} : ∀ (l1 l2 : List α) (j : Nat), j < l1.length →
    (l1 ++ l2).get? j = l1.get? j := by
  intro l1
  induction l1 with
  | nil => intro l2 j h; exact absurd h (by simp)
  | cons x xs ih =>
    intro l2 j h
    cases j with
    | zero => rfl
    | succ m => exact ih l2 m (Nat.lt_of_succ_lt_succ h)

theorem lget_append_len {α : Type} : ∀ (l : List α) (a : α),
    (l ++ [a]).get? l.length = some a := by
  intro l a
  induction l with
  | nil => rfl
  | cons x xs ih => exact ih

theorem lget_set_eq {α : Type} : ∀ (l : List α) (i : Nat) (a : α), i < l.length →
    (l.set i a).get? i = some a := by
  intro l
  induction l with
  | nil => intro i a h; exact absurd h (by simp)
  | cons x xs ih =>
    intro i a h
    cases i with
    | zero => rfl
    | succ m => exact ih m a (Nat.lt_of_succ_lt_succ h)

theorem lget_set_ne {α : Type} : ∀ (l : List α) (i j : Nat) (a : α), i ≠ j →
    (l.set i a).get? j = l.get? j := by
  intro l
  induction l with
  | nil => intro i j a _; cases i <;> rfl
  | cons x xs ih =>
    intro i j a hne
    cases i with
    | zero =>
      cases j with
      | zero => exact absurd rfl hne
      | succ m => rfl
    | succ m =>
      cases j with
      | zero => rfl
      | succ k => exact ih m k a (fun he => hne (congrArg Nat.succ he))

theorem lookup_append_of_none {β : Type} : ∀ (l : List (String × β)) (key : String)
    (x : String × β), l.lookup key = none →
    (l ++ [x]).lookup key = (if key == x.1 then some x.2 else none) := by
  intro l key x
  induction l with
  | nil =>
    intro _
    simp only [List.nil_append, List.lookup]
    cases hk : (key == x.1) <;> simp [hk]
  | cons y ys ih =>
    intro h
    cases hk : (key == y.1) with
    | true =>
      exfalso
      simp only [List.lookup, hk] at h
      exact absurd h (by simp)
    | false =>
      simp only [List.cons_append, List.lookup, hk] at h ⊢
      exact ih h

theorem lookup_append_of_some {β : Type} : ∀ (l l2 : List (String × β)) (key : String)
    (v : β), l.lookup key = some v → (l ++ l2).lookup key = some v := by
  intro l l2 key v
  induction l with
  | nil => intro h; exact absurd h (by simp)
  | cons y ys ih =>
    intro h
    cases hk : (key == y.1) with
    | true => simp only [List.lookup, hk] at h ⊢; exact h
    | false => simp only [List.cons_append, List.lookup, hk] at h ⊢; exact ih h
/-- C4: with no remaining components, resolution at a directory returns the
child found under `index.html`, then `index.htm`, then `index.tmpl`, in that
priority order, and fails precisely when none of the three names is a child
(src/linkup.go:144-155). -/
theorem claim4_directory_index (store : List FSEntity) (i : Nat) (e : FSEntity)
    (h : store.get? i = some e) (hd : e.directory = true) :
    isPathValid store (some i) [] =
      ((e.children.lookup "index.html").orElse fun _ =>
        ((e.children.lookup "index.htm").orElse fun _ => e.children.lookup "index.tmpl")) ∧
    (isPathValid store (some i) [] = none ↔
      e.children.lookup "index.html" = none ∧ e.children.lookup "index.htm" = none ∧
        e.children.lookup "index.tmpl" = none) := by
  cases h1 : e.children.lookup "index.html" with
  | some c => rw [ipvDirHtml store i c e h hd h1]; simp [Option.orElse]
  | none =>
    cases h2 : e.children.lookup "index.htm" with
    | some c => rw [ipvDirHtm store i c e h hd h1 h2]; simp [Option.orElse]
    | none =>
      rw [ipvDirTmpl store i e h hd h1 h2]
      cases h3 : e.children.lookup "index.tmpl" <;> simp [Option.orElse, h3]

theorem claim4_witness :
    ((addFile (addFile websiteNew "blog/index.htm").1 "blog/index.tmpl").1.store.get? 1 =
      some ({ name := "blog", fullname := "blog", directory := true
              children := [("index.htm", 2), ("index.tmpl", 3)], parent := some 0
              ids := [], hrefs := [] } : FSEntity)) ∧
    (({ name := "blog", fullname := "blog", directory := true
        children := [("index.htm", 2), ("index.tmpl", 3)], parent := some 0
        ids := [], hrefs := [] } : FSEntity).directory = true) ∧
    (isPathValid (addFile (addFile websiteNew "blog/index.htm").1 "blog/index.tmpl").1.store
        (some 1) [] =
      ((({ name := "blog", fullname := "blog", directory := true
           children := [("index.htm", 2), ("index.tmpl", 3)], parent := some 0
           ids := [], hrefs := [] } : FSEntity).children.lookup "index.html").orElse fun _ =>
        ((({ name := "blog", fullname := "blog", directory := true
             children := [("index.htm", 2), ("index.tmpl", 3)], parent := some 0
             ids := [], hrefs := [] } : FSEntity).children.lookup "index.htm").orElse fun _ =>
          ({ name := "blog", fullname := "blog", directory := true
             children := [("index.htm", 2), ("index.tmpl", 3)], parent := some 0
             ids := [], hrefs := [] } : FSEntity).children.lookup "index.tmpl")) ∧
      (isPathValid (addFile (addFile websiteNew "blog/index.htm").1 "blog/index.tmpl").1.store
          (some 1) [] = none ↔
        ({ name := "blog", fullname := "blog", directory := true
           children := [("index.htm", 2), ("index.tmpl", 3)], parent := some 0
           ids := [], hrefs := [] } : FSEntity).children.lookup "index.html" = none ∧
        ({ name := "blog", fullname := "blog", directory := true
           children := [("index.htm", 2), ("index.tmpl", 3)], parent := some 0
           ids := [], hrefs := [] } : FSEntity).children.lookup "index.htm" = none ∧
        ({ name := "blog", fullname := "blog", directory := true
           children := [("index.htm", 2), ("index.tmpl", 3)], parent := some 0
           ids := [], hrefs := [] } : FSEntity).children.lookup "index.tmpl" = none)) :=
  ⟨by decide, by decide,
    claim4_directory_index _ 1 _ (by decide) (by decide)⟩

/-- C5: a `".."` component always continues resolution at the parent pointer
of the current node, and from a parentless node (the root) `".."` fails for
every remaining component list (src/linkup.go:139-141 and 157-159). -/
theorem claim5_dotdot (store : List FSEntity) (i : Nat) (e : FSEntity) (rest : List String)
    (h : store.get? i = some e) :
    isPathValid store (some i) (".." :: rest) = isPathValid store e.parent rest ∧
    (e.parent = none → isPathValid store (some i) (".." :: rest) = none) := by
  refine ⟨ipvDotdot store i e rest h, fun hp => ?_⟩
  rw [ipvDotdot store i e rest h, hp, ipvNone]

theorem claim5_witness :
    ((addFile websiteNew "blog/a.html").1.store.get? 0 =
      some ({ name := "/", fullname := "", directory := true, children := [("blog", 1)]
              parent := none, ids := [], hrefs := [] } : FSEntity)) ∧
    (isPathValid (addFile websiteNew "blog/a.html").1.store (some 0) (".." :: ["blog"]) =
      isPathValid (addFile websiteNew "blog/a.html").1.store
        ({ name := "/", fullname := "", directory := true, children := [("blog", 1)]
           parent := none, ids := [], hrefs := [] } : FSEntity).parent ["blog"] ∧
      (({ name := "/", fullname := "", directory := true, children := [("blog", 1)]
          parent := none, ids := [], hrefs := [] } : FSEntity).parent = none →
        isPathValid (addFile websiteNew "blog/a.html").1.store (some 0) (".." :: ["blog"]) =
          none)) :=
  ⟨by decide, claim5_dotdot _ 0 _ ["blog"] (by decide)⟩

/-- C1 (the code contradicts it): registering the exact same path a second
time does NOT fail.  `createFSEntity` reaches the existing node with an empty
component list and returns it (src/linkup.go:292-294), so the second `AddFile`
returns no error (first two conjuncts; the store happens to stay unchanged).
A second `AddDocumentFromReader` for the path likewise returns no error and
MUTATES the already-registered entity: its `ids` counter for `"top"` doubles
and the reference list is appended to (last two conjuncts). -/
theorem claim1_duplicate_registration_not_rejected :
    (addFile (addFile websiteNew "a.html").1 "a.html").2 = none ∧
    (addFile (addFile websiteNew "a.html").1 "a.html").1 = (addFile websiteNew "a.html").1 ∧
    (addDocumentFromReader
        (addDocumentFromReader websiteNew "p.html" ["/x.css"] ["top"]).1
        "p.html" ["/y.css"] ["top"]).2 = none ∧
    ((addDocumentFromReader
        (addDocumentFromReader websiteNew "p.html" ["/x.css"] ["top"]).1
        "p.html" ["/y.css"] ["top"]).1.store.get? 1 =
      some ({ name := "p.html", fullname := "p.html", directory := false, children := []
              parent := some 0, ids := [("top", 2)]
              hrefs := ["/x.css", "/y.css"] } : FSEntity)) := by
  refine ⟨by decide, by decide, by decide, by decide⟩

/-- C3 counterexample: the tree produced by registering `"a/"` differs from
the tree produced by registering `"a"` (the path with its empty segment
removed): `newFSEntity` splits with Go `strings.Split`, which keeps empty
segments, so `"a/"` creates a directory `"a"` containing a leaf named `""`. -/
theorem claim3_counterexample :
    ¬ ((addFile websiteNew "a/").1 = (addFile websiteNew "a").1) := by decide

theorem splitAtLastHash_no_hash : ∀ l : List Char, '#' ∉ l → splitAtLastHash l = none := by
  intro l
  induction l with
  | nil => intro _; rfl
  | cons c cs ih =>
    intro h
    have h1 : (c == '#') = false := by
      apply beq_eq_false_iff_ne.mpr
      intro he
      exact h (he ▸ List.mem_cons_self c cs)
    have h2 : splitAtLastHash cs = none := ih fun hm => h (List.mem_cons_of_mem c hm)
    rw [splitAtLastHash.eq_def]
    dsimp only
    rw [h2, h1]
    simp

theorem splitAtLastHash_last : ∀ (pre post : List Char), '#' ∉ post →
    splitAtLastHash (pre ++ '#' :: post) = some (pre, post) := by
  intro pre
  induction pre with
  | nil =>
    intro post h
    rw [List.nil_append, splitAtLastHash.eq_def]
    dsimp only
    rw [splitAtLastHash_no_hash post h]
    simp
  | cons c cs ih =>
    intro post h
    rw [List.cons_append, splitAtLastHash.eq_def]
    dsimp only
    rw [ih post h]

/-- C6: after trimming and backslash normalization, a reference equal to `#`
always contributes exactly the `incomplete target` error, and a reference
equal to `/` contributes no error and no probe (src/linkup.go:212-219). -/
theorem claim6_bare_hash_and_root (pingFn : String → Option Nat) (store : List FSEntity)
    (e : FSEntity) (href0 : String) :
    (normSlashes (goTrimSpace href0) = "#" →
      validateHref pingFn store e href0 =
        ([e.fullname ++ ": incomplete target \x27#\x27"], [])) ∧
    (normSlashes (goTrimSpace href0) = "/" →
      validateHref pingFn store e href0 = ([], [])) := by
  constructor
  · intro hh
    have h1 : hasPrefixGo "#" "http" = false := by decide
    simp [validateHref, hh, h1]
  · intro hh
    have h1 : hasPrefixGo "/" "http" = false := by decide
    have h2 : (("/" : String) == "#") = false := by decide
    simp [validateHref, hh, h1, h2]

theorem claim6_witness :
    validateHref (fun _ => none) [] (allocateFSEntity "p") " # " =
      ([": incomplete target \x27#\x27"], []) ∧
    validateHref (fun _ => none) [] (allocateFSEntity "p") "\u00a0#" =
      ([": incomplete target \x27#\x27"], []) ∧
    validateHref (fun _ => none) [] (allocateFSEntity "p") " \\ " = ([], []) :=
  ⟨((claim6_bare_hash_and_root (fun _ => none) [] (allocateFSEntity "p") " # ").1
      (by decide)).trans (by decide),
    ((claim6_bare_hash_and_root (fun _ => none) [] (allocateFSEntity "p") "\u00a0#").1
      (by decide)).trans (by decide),
    (claim6_bare_hash_and_root (fun _ => none) [] (allocateFSEntity "p") " \\ ").2 (by decide)⟩

/-- C7: a normalized reference whose only `'#'` is its first character (so
Go `strings.LastIndex` returns 0) and that is not the bare `"#"` is checked
against the current page's own identifier multiset only: the text after the
`'#'` must be one of the page's identifiers, else the `broken same page link`
error is emitted.  Neither the store nor the probe function occurs on the
right-hand side: no path resolution and no probe take part
(src/linkup.go:221-229). -/
theorem claim7_same_page_fragment (pingFn : String → Option Nat) (store : List FSEntity)
    (e : FSEntity) (href0 : String) (rest : List Char)
    (hh : normSlashes (goTrimSpace href0) = String.mk ('#' :: rest))
    (hlast : '#' ∉ rest)
    (hne : String.mk ('#' :: rest) ≠ "#") :
    validateHref pingFn store e href0 =
      (if (e.ids.lookup (String.mk rest)).isSome then []
       else [e.fullname ++ ": broken same page link \x27" ++ String.mk ('#' :: rest) ++ "\x27"],
       []) := by
  have hpre : hasPrefixGo (String.mk ('#' :: rest)) "http" = false := rfl
  have hq1 : (String.mk ('#' :: rest) == "#") = false := beq_eq_false_iff_ne.mpr hne
  have hq2 : (String.mk ('#' :: rest) == "/") = false := by
    apply beq_eq_false_iff_ne.mpr
    intro hEq
    have hd := congrArg String.data hEq
    have : '#' ∈ ("/" : String).data := hd ▸ List.mem_cons_self '#' rest
    simp [String.data] at this
  have hsplit : splitAtLastHash (String.mk ('#' :: rest)).data = some ([], rest) :=
    splitAtLastHash_last [] rest hlast
  simp only [validateHref, hh, hpre, hq1, hq2, hsplit]
  cases hi : (e.ids.lookup (String.mk rest)).isSome <;> simp [hi]

theorem claim7_witness :
    normSlashes (goTrimSpace "#top") = String.mk ('#' :: "top".data) ∧
    validateHref (fun _ => none) [] ({ allocateFSEntity "p" with ids := [("top", 1)] }) "#top" =
      ([], []) ∧
    validateHref (fun _ => none) []
      ({ allocateFSEntity "p" with ids := [("top", 1)] }) "#top\u00a0" = ([], []) ∧
    validateHref (fun _ => none) [] ({ allocateFSEntity "p" with ids := [("top", 1)] }) "#bot" =
      ([": broken same page link \x27#bot\x27"], []) :=
  ⟨by decide,
    (claim7_same_page_fragment (fun _ => none) []
      ({ allocateFSEntity "p" with ids := [("top", 1)] }) "#top" "top".data
      (by decide) (by decide) (by decide)).trans (by decide),
    (claim7_same_page_fragment (fun _ => none) []
      ({ allocateFSEntity "p" with ids := [("top", 1)] }) "#top\u00a0" "top".data
      (by decide) (by decide) (by decide)).trans (by decide),
    (claim7_same_page_fragment (fun _ => none) []
      ({ allocateFSEntity "p" with ids := [("top", 1)] }) "#bot" "bot".data
      (by decide) (by decide) (by decide)).trans (by decide)⟩

/-- C9: a normalized reference beginning with `http` is handled by probing
alone: exactly one probe is issued (for the normalized reference itself), a
transport failure produces the `encountered error when pinging` error, a
non-200 status produces the `encountered status code N when pinging` error,
and a 200 status produces no error.  The store does not occur on the
right-hand side: the entity tree is never consulted (src/linkup.go:201-210,
322-337). -/
theorem claim9_external_probe (pingFn : String → Option Nat) (store : List FSEntity)
    (e : FSEntity) (href0 : String)
    (hh : hasPrefixGo (normSlashes (goTrimSpace href0)) "http" = true) :
    validateHref pingFn store e href0 =
      (match pingFn (normSlashes (goTrimSpace href0)) with
       | none =>
         [e.fullname ++ ": encountered error when pinging \x27" ++
           normSlashes (goTrimSpace href0) ++ "\x27"]
       | some status =>
         if status != 200 then
           [e.fullname ++ ": encountered status code " ++ toString status ++
             " when pinging \x27" ++ normSlashes (goTrimSpace href0) ++ "\x27"]
         else [],
       [normSlashes (goTrimSpace href0)]) := by
  simp only [validateHref, hh]
  cases hp : pingFn (normSlashes (goTrimSpace href0)) with
  | none => simp
  | some status => cases hs : (status != 200) <;> simp [hs]

theorem claim9_witness :
    hasPrefixGo (normSlashes (goTrimSpace " https://example.com ")) "http" = true ∧
    validateHref (fun _ => some 200) [] (allocateFSEntity "p") "https://example.com\u00a0" =
      ([], ["https://example.com"]) ∧
    validateHref (fun _ => some 404) [] (allocateFSEntity "p") " https://example.com " =
      ([": encountered status code 404 when pinging \x27https://example.com\x27"],
        ["https://example.com"]) ∧
    validateHref (fun _ => none) [] (allocateFSEntity "p") " https://example.com " =
      ([": encountered error when pinging \x27https://example.com\x27"],
        ["https://example.com"]) ∧
    validateHref (fun _ => some 200) [] (allocateFSEntity "p") " https://example.com " =
      ([], ["https://example.com"]) :=
  ⟨by decide,
    (claim9_external_probe (fun _ => some 200) [] (allocateFSEntity "p")
      "https://example.com\u00a0" (by decide)).trans (by decide),
    (claim9_external_probe (fun _ => some 404) [] (allocateFSEntity "p")
      " https://example.com " (by decide)).trans (by decide),
    (claim9_external_probe (fun _ => none) [] (allocateFSEntity "p")
      " https://example.com " (by decide)).trans (by decide),
    (claim9_external_probe (fun _ => some 200) [] (allocateFSEntity "p")
      " https://example.com " (by decide)).trans (by decide)⟩

/-- C8: a normalized reference (not starting with `http`) whose last `'#'`
sits at a positive position is split there: the part before the `'#'`
(re-trimmed) is resolved from the root when it starts with `'/'` and from the
page's parent directory otherwise, failed resolution emits the
`broken link` / `broken relative link` error, and successful resolution
additionally requires the re-trimmed part after the `'#'` to be an identifier
of the resolved target, emitting the `broken target link` error exactly when
it is absent (src/linkup.go:231-254). -/
theorem claim8_path_with_fragment (pingFn : String → Option Nat) (store : List FSEntity)
    (e : FSEntity) (href0 : String) (pre post : List Char)
    (hh : normSlashes (goTrimSpace href0) = String.mk (pre ++ '#' :: post))
    (hpre : pre ≠ [])
    (hlast : '#' ∉ post)
    (hhttp : hasPrefixGo (String.mk (pre ++ '#' :: post)) "http" = false) :
    validateHref pingFn store e href0 =
      (match (if hasPrefixGo (goTrimSpace (String.mk pre)) "/" then
                isPathValid store (some 0) (splitPath (goTrimSpace (String.mk pre)))
              else
                isPathValid store e.parent (splitPath (goTrimSpace (String.mk pre)))) with
       | none =>
         [e.fullname ++
           (if hasPrefixGo (goTrimSpace (String.mk pre)) "/" then ": broken link \x27"
            else ": broken relative link \x27") ++ goTrimSpace (String.mk pre) ++ "\x27"]
       | some tid =>
         if ((entityIds store tid).lookup (goTrimSpace (String.mk post))).isSome then []
         else
           [e.fullname ++ ": broken target link \x27" ++ goTrimSpace (String.mk pre) ++ "#" ++
             goTrimSpace (String.mk post) ++ "\x27"],
       []) := by
  have hq1 : (String.mk (pre ++ '#' :: post) == "#") = false := by
    apply beq_eq_false_iff_ne.mpr
    intro hEq
    have hd := congrArg String.data hEq
    have hlen := congrArg List.length hd
    simp [String.data, List.length_append] at hlen
    have : pre.length ≠ 0 := fun h0 => hpre (List.length_eq_zero.mp h0)
    omega
  have hq2 : (String.mk (pre ++ '#' :: post) == "/") = false := by
    apply beq_eq_false_iff_ne.mpr
    intro hEq
    have hd : pre ++ '#' :: post = ("/" : String).data := congrArg String.data hEq
    have hmem : '#' ∈ pre ++ '#' :: post := by simp
    rw [hd] at hmem
    simp [String.data] at hmem
  have hie : pre.isEmpty = false := by
    cases pre with
    | nil => exact absurd rfl hpre
    | cons a as => rfl
  have hsplit : splitAtLastHash (String.mk (pre ++ '#' :: post)).data = some (pre, post) :=
    splitAtLastHash_last pre post hlast
  simp only [validateHref, hh, hhttp, hq1, hq2, hsplit, hie]
  simp only [Bool.false_eq_true, if_false]
  simp only [resolveAndCheck]

theorem claim8_witness :
    validateHref (fun _ => none)
      (addDocumentFromReader (addDocumentFromReader websiteNew "index.html" [] ["dazzle"]).1
        "blog/index.html" [] []).1.store
      ({ name := "index.html", fullname := "blog/index.html", directory := false
         children := [], parent := some 2, ids := [], hrefs := [] } : FSEntity)
      "/index.html#dazzle" = ([], []) ∧
    validateHref (fun _ => none)
      (addDocumentFromReader (addDocumentFromReader websiteNew "index.html" [] ["dazzle"]).1
        "blog/index.html" [] []).1.store
      ({ name := "index.html", fullname := "blog/index.html", directory := false
         children := [], parent := some 2, ids := [], hrefs := [] } : FSEntity)
      "\u00a0/index.html#dazzle" = ([], []) ∧
    validateHref (fun _ => none)
      (addDocumentFromReader (addDocumentFromReader websiteNew "index.html" [] ["dazzle"]).1
        "blog/index.html" [] []).1.store
      ({ name := "index.html", fullname := "blog/index.html", directory := false
         children := [], parent := some 2, ids := [], hrefs := [] } : FSEntity)
      "/index.html#zap" =
      (["blog/index.html: broken target link \x27/index.html#zap\x27"], []) ∧
    validateHref (fun _ => none)
      (addDocumentFromReader (addDocumentFromReader websiteNew "index.html" [] ["dazzle"]).1
        "blog/index.html" [] []).1.store
      ({ name := "index.html", fullname := "blog/index.html", directory := false
         children := [], parent := some 2, ids := [], hrefs := [] } : FSEntity)
      "missing.html#x" =
      (["blog/index.html: broken relative link \x27missing.html\x27"], []) :=
  ⟨(claim8_path_with_fragment (fun _ => none)
      (addDocumentFromReader (addDocumentFromReader websiteNew "index.html" [] ["dazzle"]).1
        "blog/index.html" [] []).1.store
      ({ name := "index.html", fullname := "blog/index.html", directory := false
         children := [], parent := some 2, ids := [], hrefs := [] } : FSEntity)
      "/index.html#dazzle" "/index.html".data "dazzle".data
      (by decide) (by decide) (by decide) (by decide)).trans (by decide),
    (claim8_path_with_fragment (fun _ => none)
      (addDocumentFromReader (addDocumentFromReader websiteNew "index.html" [] ["dazzle"]).1
        "blog/index.html" [] []).1.store
      ({ name := "index.html", fullname := "blog/index.html", directory := false
         children := [], parent := some 2, ids := [], hrefs := [] } : FSEntity)
      "\u00a0/index.html#dazzle" "/index.html".data "dazzle".data
      (by decide) (by decide) (by decide) (by decide)).trans (by decide),
    (claim8_path_with_fragment (fun _ => none)
      (addDocumentFromReader (addDocumentFromReader websiteNew "index.html" [] ["dazzle"]).1
        "blog/index.html" [] []).1.store
      ({ name := "index.html", fullname := "blog/index.html", directory := false
         children := [], parent := some 2, ids := [], hrefs := [] } : FSEntity)
      "/index.html#zap" "/index.html".data "zap".data
      (by decide) (by decide) (by decide) (by decide)).trans (by decide),
    (claim8_path_with_fragment (fun _ => none)
      (addDocumentFromReader (addDocumentFromReader websiteNew "index.html" [] ["dazzle"]).1
        "blog/index.html" [] []).1.store
      ({ name := "index.html", fullname := "blog/index.html", directory := false
         children := [], parent := some 2, ids := [], hrefs := [] } : FSEntity)
      "missing.html#x" "missing.html".data "x".data
      (by decide) (by decide) (by decide) (by decide)).trans (by decide)⟩

theorem validateS_fst (pingFn : String → Option Nat) :
    ∀ (fuel : Nat) (store : List FSEntity) (i : Nat),
      (validateS pingFn fuel store i).1 = store := by
  intro fuel
  induction fuel with
  | zero => intro store i; rfl
  | succ n ih =>
    intro store i
    have hfold : ∀ (l : List (String × Nat)) (st : List FSEntity) (errs : List String),
        (l.foldl (fun acc ch =>
          ((validateS pingFn n acc.1 ch.2).1, acc.2 ++ (validateS pingFn n acc.1 ch.2).2))
          (st, errs)).1 = st := by
      intro l
      induction l with
      | nil => intro st errs; rfl
      | cons hd tl ihl =>
        intro st errs
        simp only [List.foldl_cons]
        have h1 : (validateS pingFn n st hd.2).1 = st := ih st hd.2
        calc ((tl.foldl (fun acc ch =>
            ((validateS pingFn n acc.1 ch.2).1, acc.2 ++ (validateS pingFn n acc.1 ch.2).2))
            ((validateS pingFn n st hd.2).1, errs ++ (validateS pingFn n st hd.2).2)).1)
            = (validateS pingFn n st hd.2).1 := ihl _ _
          _ = st := h1
    rw [validateS.eq_def]
    dsimp only
    cases hgs : store.get? i with
    | none => rfl
    | some e =>
      dsimp only
      cases hd : e.directory with
      | true => rw [if_pos rfl]; exact hfold e.children store []
      | false => simp [hd]

/-- C10: `Website.Validate` returns the heap it was given: the Go validator
(src/linkup.go:135-137, 179-258) assigns to no entity field, so the store
threaded through the traversal comes back unchanged for every probe function,
every fuel and every website — validation is read-only on the tree. -/
theorem claim10_validate_readonly (pingFn : String → Option Nat) (fuel : Nat) (w : Website) :
    (websiteValidate pingFn fuel w).1 = w := by
  show Website.mk (validateS pingFn fuel w.store 0).1 = w
  rw [validateS_fst pingFn fuel w.store 0]

theorem spine : ∀ (rest : List String) (S : List FSEntity) (pid : Nat) (e : FSEntity)
    (c : String), S.get? pid = some e → e.directory = true → e.children.lookup c = none →
    ∃ S2, createFSEntity S pid (c :: rest) = (S2, some (S.length + rest.length)) ∧
      SpineOut S pid e c rest S2 := by
  intro rest
  induction rest with
  | nil =>
    intro S pid e c hget hdir hlk
    have hpid : pid < S.length := lget_some_lt S pid e hget
    refine ⟨_, cfeFreshLast S pid e c hget hdir hlk, ?_⟩
    constructor
    · simp [List.length_set, List.length_append]
    · intro j hj hne
      rw [lget_set_ne _ pid j _ (fun h => hne h.symm), lget_append_lt S _ j hj]
    · exact lget_set_eq _ pid _ (by rw [List.length_append]; simp; omega)
    · intro k hk
      have hk0 : k = 0 := Nat.le_zero.mp hk
      subst hk0
      refine ⟨({ name := c,
                 fullname := calcFullName S S.length (some pid) c,
                 directory := false, children := [], parent := some pid,
                 ids := [], hrefs := [] } : FSEntity), ?_, rfl, rfl, rfl, rfl, rfl, rfl⟩
      rw [Nat.add_zero, lget_set_ne _ pid S.length _ (fun h => Nat.lt_irrefl pid (h ▸ hpid)),
        lget_append_len]
  | cons r rest2 ih =>
    intro S pid e c hget hdir hlk
    have hpid : pid < S.length := lget_some_lt S pid e hget
    rw [cfeFreshStep S pid e c r rest2 hget hdir hlk]
    set childT : FSEntity :=
      { name := c, fullname := calcFullName S S.length (some pid) c
        directory := true, children := [], parent := some pid
        ids := [], hrefs := [] } with hchildT
    set S2a : List FSEntity :=
      (S ++ [childT]).set pid { e with children := e.children ++ [(c, S.length)] } with hS2a
    have hlenA : S2a.length = S.length + 1 := by
      rw [hS2a, List.length_set, List.length_append]
      rfl
    have hgetT : S2a.get? S.length = some childT := by
      rw [hS2a, lget_set_ne _ pid S.length _ (fun h => Nat.lt_irrefl pid (h ▸ hpid)),
        lget_append_len]
    have hpidA : pid < (S ++ [childT]).length := by
      rw [List.length_append]
      exact Nat.lt_of_lt_of_le hpid (Nat.le_add_right _ _)
    obtain ⟨S2, heq, so⟩ := ih S2a S.length childT r hgetT rfl rfl
    refine ⟨S2, ?_, ?_⟩
    · rw [heq]
      have h8 : S2a.length + rest2.length = S.length + (r :: rest2).length := by
        rw [hlenA, List.length_cons]
        omega
      rw [h8]
    constructor
    · rw [so.len, hlenA, List.length_cons]
      omega
    · intro j hj hne
      have h1 : S2.get? j = S2a.get? j :=
        so.old j (by omega) (fun h => Nat.lt_irrefl j (h ▸ hj))
      rw [h1, hS2a, lget_set_ne _ pid j _ (fun h => hne h.symm), lget_append_lt S _ j hj]
    · have h1 : S2.get? pid = S2a.get? pid :=
        so.old pid (by omega) (fun h => Nat.lt_irrefl pid (h ▸ hpid))
      rw [h1, hS2a, lget_set_eq _ pid _ hpidA]
    · intro k hk
      cases k with
      | zero =>
        have hat := so.atPid
        rw [hchildT] at hat
        refine ⟨_, by rw [Nat.add_zero]; exact hat, ?_, ?_, ?_, ?_, ?_, ?_⟩
        · rfl
        · simp
        · simp
        · rw [hlenA]
          rfl
        · rfl
        · rfl
      | succ k2 =>
        have hk2 : k2 ≤ rest2.length := by
          rw [List.length_cons] at hk
          omega
        obtain ⟨ent, hge, hnm, hdi, hpa, hch, hid, hhr⟩ := so.chain k2 hk2
        have hidx : S.length + (k2 + 1) = S2a.length + k2 := by omega
        refine ⟨ent, ?_, hnm, ?_, ?_, ?_, hid, hhr⟩
        · rw [hidx]; exact hge
        · rw [hdi]
          apply decide_eq_decide.mpr
          rw [List.length_cons]
          omega
        · rw [hpa, hlenA]
          cases k2 with
          | zero => simp
          | succ k3 =>
            simp only [Nat.succ_ne_zero, if_false, Option.some.injEq]
            omega
        · rw [hch]
          simp only [List.get?_cons_succ]
          have h9 : S2a.length + k2 + 1 = S.length + (k2 + 1) + 1 := by omega
          rw [h9]

theorem splitSlashAux_ne_nil : ∀ (l acc : List Char), splitSlashAux l acc ≠ [] := by
  intro l
  induction l with
  | nil => intro acc h; simp [splitSlashAux] at h
  | cons ch rest ih =>
    intro acc
    rw [splitSlashAux.eq_def]
    dsimp only
    cases hc : (ch == '/') with
    | true => simp [hc]
    | false => simp [hc]; exact ih (ch :: acc)

/-- C3 (amended): `AddFile` splits the path on `'/'` WITHOUT discarding empty
segments (Go `strings.Split`, src/linkup.go:319).  On a fresh website it
always succeeds and builds one entity per raw segment, in order: entity
`1 + k` carries the `k`-th raw segment as its name (an empty segment yields
an entity named `""`), is a directory for every segment but the last, is a
leaf for the last, and hangs under the entity of the previous segment. -/
theorem claim3_amended (p : String) :
    (addFile websiteNew p).2 = none ∧
    (addFile websiteNew p).1.store.length = 1 + (splitSlash (prepareFileName p)).length ∧
    (∀ k, k < (splitSlash (prepareFileName p)).length →
      ∃ ent, (addFile websiteNew p).1.store.get? (1 + k) = some ent ∧
        some ent.name = (splitSlash (prepareFileName p)).get? k ∧
        ent.directory = decide (k + 1 < (splitSlash (prepareFileName p)).length) ∧
        ent.parent = some k) := by
  cases hsegs : splitSlash (prepareFileName p) with
  | nil => exact absurd hsegs (splitSlashAux_ne_nil _ [])
  | cons c rest =>
    obtain ⟨S2, heq, so⟩ :=
      spine rest websiteNew.store 0 ({ allocateFSEntity "/" with directory := true }) c
        rfl rfl rfl
    have hlen1 : websiteNew.store.length = 1 := rfl
    have haddF : addFile websiteNew p = (⟨S2⟩, none) := by
      simp only [addFile, newFSEntity, hsegs, heq]
    rw [haddF]
    refine ⟨rfl, ?_, ?_⟩
    · rw [so.len, hlen1, List.length_cons]
      omega
    · intro k hk
      rw [List.length_cons] at hk
      obtain ⟨ent, hge, hnm, hdi, hpa, _, _, _⟩ := so.chain k (by omega)
      rw [hlen1] at hge hpa
      refine ⟨ent, hge, hnm, ?_, ?_⟩
      · rw [hdi]
        apply decide_eq_decide.mpr
        rw [List.length_cons]
        omega
      · rw [hpa]
        cases k with
        | zero => rfl
        | succ k2 =>
          simp only [Nat.succ_ne_zero, if_false, Option.some.injEq]
          omega

theorem claim3_witness :
    (addFile websiteNew "a//b.html").2 = none ∧
    (addFile websiteNew "a//b.html").1.store.length =
      1 + (splitSlash (prepareFileName "a//b.html")).length ∧
    (∃ ent, (addFile websiteNew "a//b.html").1.store.get? (1 + 1) = some ent ∧
      some ent.name = (splitSlash (prepareFileName "a//b.html")).get? 1 ∧
      ent.directory = decide (1 + 1 < (splitSlash (prepareFileName "a//b.html")).length) ∧
      ent.parent = some 1) :=
  ⟨(claim3_amended "a//b.html").1, (claim3_amended "a//b.html").2.1,
    (claim3_amended "a//b.html").2.2 1 (by decide)⟩

theorem walk_append (S : List FSEntity) :
    ∀ (l1 l2 : List String) (i : Nat),
      walk S i (l1 ++ l2) = (walk S i l1).bind fun j => walk S j l2 := by
  intro l1
  induction l1 with
  | nil => intro l2 i; rfl
  | cons a l1t ih =>
    intro l2 i
    cases hg : S.get? i with
    | none =>
      rw [List.cons_append, walkUndef S i a (l1t ++ l2) hg, walkUndef S i a l1t hg]
      rfl
    | some e =>
      cases hl : e.children.lookup a with
      | none =>
        rw [List.cons_append, walkChildNone S i e a (l1t ++ l2) hg hl,
          walkChildNone S i e a l1t hg hl]
        rfl
      | some j =>
        rw [List.cons_append, walkChild S i j e a (l1t ++ l2) hg hl,
          walkChild S i j e a l1t hg hl, ih]

theorem isStem_append_both : ∀ (x y z : List String),
    isStem (x ++ y) (x ++ z) = isStem y z := by
  intro x
  induction x with
  | nil => intro y z; rfl
  | cons a xt ih =>
    intro y z
    rw [List.cons_append, List.cons_append, isStem, beq_self_eq_true, Bool.true_and]
    exact ih y z

theorem isStem_take : ∀ (l : List String) (n : Nat), isStem (l.take n) l = true := by
  intro l
  induction l with
  | nil => intro n; cases n <;> rfl
  | cons a lt ih =>
    intro n
    cases n with
    | zero => rfl
    | succ n2 =>
      rw [List.take_succ_cons, isStem, beq_self_eq_true, Bool.true_and]
      exact ih n2

theorem isStem_length_le : ∀ (a b : List String), isStem a b = true → a.length ≤ b.length := by
  intro a
  induction a with
  | nil => intro b _; exact Nat.zero_le _
  | cons x at2 ih =>
    intro b h
    cases b with
    | nil => exact absurd h (by rw [isStem]; simp)
    | cons y bt =>
      rw [isStem, Bool.and_eq_true] at h
      exact Nat.succ_le_succ (ih bt h.2)

theorem lookup_mem {β : Type} : ∀ (l : List (String × β)) (key : String) (v : β),
    l.lookup key = some v → (key, v) ∈ l := by
  intro l key v
  induction l with
  | nil => intro h; exact absurd h (by simp)
  | cons y ys ih =>
    intro h
    cases hk : (key == y.1) with
    | true =>
      simp only [List.lookup, hk] at h
      have h1 : key = y.1 := eq_of_beq hk
      have h2 : v = y.2 := by injection h with hh; exact hh.symm
      simp [h1, h2]
    | false =>
      simp only [List.lookup, hk] at h
      exact List.mem_cons_of_mem y (ih h)

theorem walk_to_isPathValid : ∀ (comps : List String) (S : List FSEntity) (i j : Nat)
    (e : FSEntity), ".." ∉ comps → walk S i comps = some j → S.get? j = some e →
    e.directory = false → isPathValid S (some i) comps = some j := by
  intro comps
  induction comps with
  | nil =>
    intro S i j e _ hw hg hd
    have hij : i = j := by
      rw [walkNil] at hw
      injection hw
    subst hij
    exact ipvLeaf S i e hg hd
  | cons a ct ih =>
    intro S i j e hnm hw hg hd
    have hane : a ≠ ".." := fun h => hnm (h ▸ List.mem_cons_self a ct)
    cases hgi : S.get? i with
    | none => rw [walkUndef S i a ct hgi] at hw; exact absurd hw (by simp)
    | some ei =>
      cases hl : ei.children.lookup a with
      | none => rw [walkChildNone S i ei a ct hgi hl] at hw; exact absurd hw (by simp)
      | some j2 =>
        rw [walkChild S i j2 ei a ct hgi hl] at hw
        rw [ipvChild S i j2 ei a ct hgi hane hl]
        exact ih S j2 j e (fun hm => hnm (List.mem_cons_of_mem a hm)) hw hg hd

theorem treeInv_init : TreeInv websiteNew.store [] := by
  have hwalkcons : ∀ (a : String) (l : List String),
      walk websiteNew.store 0 (a :: l) = none := by
    intro a l
    exact walkChildNone _ 0 _ a l rfl rfl
  constructor
  · exact ⟨_, rfl, rfl, rfl⟩
  · intro i e h pr hpr
    cases i with
    | zero =>
      have he : { allocateFSEntity "/" with directory := true } = e := by
        injection h with hh
      rw [← he] at hpr
      exact absurd hpr (by simp [allocateFSEntity])
    | succ n => cases n <;> exact absurd h (by simp [websiteNew])
  · intro segs j hw
    cases segs with
    | nil =>
      have : j = 0 := by rw [walkNil] at hw; injection hw with hh; exact hh.symm
      subst this
      exact ⟨_, rfl⟩
    | cons a l => rw [hwalkcons a l] at hw; exact absurd hw (by simp)
  · intro s1 s2 j h1 h2
    cases s1 with
    | cons a l => rw [hwalkcons a l] at h1; exact absurd h1 (by simp)
    | nil =>
      cases s2 with
      | cons a l => rw [hwalkcons a l] at h2; exact absurd h2 (by simp)
      | nil => rfl
  · intro segs j e hw hg hd
    cases segs with
    | cons a l => rw [hwalkcons a l] at hw; exact absurd hw (by simp)
    | nil =>
      have : j = 0 := by rw [walkNil] at hw; injection hw with hh; exact hh.symm
      subst this
      have he : { allocateFSEntity "/" with directory := true } = e := by
        injection hg with hh
      rw [← he] at hd
      exact absurd hd (by simp [allocateFSEntity])
  · intro segs j e hne hw hg hd
    cases segs with
    | cons a l => rw [hwalkcons a l] at hw; exact absurd hw (by simp)
    | nil => exact absurd rfl hne
  · intro q hq
    exact absurd hq (by simp)

theorem lookup_singleton {β : Type} (a nm : String) (v : β) :
    List.lookup a [(nm, v)] = if a == nm then some v else none := by
  cases h : (a == nm) <;> simp [List.lookup, h]

theorem drop_cons_of_lget {α : Type} : ∀ (l : List α) (k : Nat) (x : α),
    l.get? k = some x → l.drop k = x :: l.drop (k + 1) := by
  intro l
  induction l with
  | nil => intro k x h; exact absurd h (by simp)
  | cons a t ih =>
    intro k x h
    cases k with
    | zero =>
      have : a = x := by injection h
      subst this
      rfl
    | succ k2 => exact ih k2 x h

theorem spineWalkPres (S : List FSEntity) (pid : Nat) (e : FSEntity) (c : String)
    (rest : List String) (S2 : List FSEntity) (so : SpineOut S pid e c rest S2)
    (hget : S.get? pid = some e) :
    ∀ (comps : List String) (i j : Nat), walk S i comps = some j → walk S2 i comps = some j := by
  intro comps
  induction comps with
  | nil => intro i j h; exact h
  | cons a l2 ih =>
    intro i j h
    cases hgi : S.get? i with
    | none => rw [walkUndef S i a l2 hgi] at h; exact absurd h (by simp)
    | some ei =>
      cases hl : ei.children.lookup a with
      | none => rw [walkChildNone S i ei a l2 hgi hl] at h; exact absurd h (by simp)
      | some j2 =>
        rw [walkChild S i j2 ei a l2 hgi hl] at h
        by_cases hip : i = pid
        · subst hip
          have hee : e = ei := by
            rw [hget] at hgi
            injection hgi with hh
          have hl2 : (e.children ++ [(c, S.length)]).lookup a = some j2 := by
            rw [hee]
            exact lookup_append_of_some ei.children [(c, S.length)] a j2 hl
          rw [walkChild S2 i j2 _ a l2 so.atPid hl2]
          exact ih j2 j h
        · have hilt : i < S.length := lget_some_lt S i ei hgi
          have hgi2 : S2.get? i = some ei := (so.old i hilt hip).trans hgi
          rw [walkChild S2 i j2 ei a l2 hgi2 hl]
          exact ih j2 j h

theorem spineChainWalk (S : List FSEntity) (pid : Nat) (e : FSEntity) (c : String)
    (rest : List String) (S2 : List FSEntity) (so : SpineOut S pid e c rest S2) :
    ∀ (d k : Nat), k + d = rest.length →
      walk S2 (S.length + k) ((c :: rest).drop (k + 1)) = some (S.length + rest.length) := by
  intro d
  induction d with
  | zero =>
    intro k hk
    rw [Nat.add_zero] at hk
    subst hk
    have hdrop : (c :: rest).drop (rest.length + 1) = [] :=
      List.drop_eq_nil_of_le (by rw [List.length_cons])
    rw [hdrop, walkNil]
  | succ d2 ih =>
    intro k hk
    have hklt : k < rest.length := by omega
    obtain ⟨ent, hge, _, _, _, hch, _, _⟩ := so.chain k (by omega)
    have hnm : rest.get? k = some (rest.get ⟨k, hklt⟩) := List.get?_eq_get hklt
    have hch2 : ent.children = [(rest.get ⟨k, hklt⟩, S.length + k + 1)] := by
      rw [hch]
      have h5 : (c :: rest).get? (k + 1) = rest.get? k := List.get?_cons_succ
      rw [h5, hnm]
    have hdropeq : (c :: rest).drop (k + 1) =
        rest.get ⟨k, hklt⟩ :: (c :: rest).drop (k + 1 + 1) := by
      have h1 : (c :: rest).drop (k + 1) = rest.drop k := List.drop_succ_cons
      have h2 : (c :: rest).drop (k + 1 + 1) = rest.drop (k + 1) := List.drop_succ_cons
      rw [h1, h2]
      exact drop_cons_of_lget rest k _ hnm
    have hlk2 : ent.children.lookup (rest.get ⟨k, hklt⟩) = some (S.length + k + 1) := by
      rw [hch2, lookup_singleton]
      simp
    rw [hdropeq, walkChild S2 (S.length + k) (S.length + k + 1) ent _ _ hge hlk2]
    have h6 : S.length + k + 1 = S.length + (k + 1) := by omega
    rw [h6]
    exact ih (k + 1) (by omega)

theorem spineChainWalkInv (S : List FSEntity) (pid : Nat) (e : FSEntity) (c : String)
    (rest : List String) (S2 : List FSEntity) (so : SpineOut S pid e c rest S2) :
    ∀ (comps : List String) (k j : Nat), k ≤ rest.length →
      walk S2 (S.length + k) comps = some j →
      ∃ t, comps = ((c :: rest).drop (k + 1)).take t ∧ k + t ≤ rest.length ∧
        j = S.length + k + t := by
  intro comps
  induction comps with
  | nil =>
    intro k j hk hw
    rw [walkNil] at hw
    have : S.length + k = j := by injection hw
    exact ⟨0, by simp, by omega, by omega⟩
  | cons a l2 ih =>
    intro k j hk hw
    obtain ⟨ent, hge, _, _, _, hch, _, _⟩ := so.chain k hk
    by_cases hkm : k = rest.length
    · subst hkm
      have hnone : (c :: rest).get? (rest.length + 1) = none :=
        List.get?_eq_none.mpr (by rw [List.length_cons])
      have hch2 : ent.children = [] := by rw [hch, hnone]
      rw [walkChildNone S2 (S.length + rest.length) ent a l2 hge (by rw [hch2]; rfl)] at hw
      exact absurd hw (by simp)
    · have hklt : k < rest.length := Nat.lt_of_le_of_ne hk hkm
      have hnm : rest.get? k = some (rest.get ⟨k, hklt⟩) := List.get?_eq_get hklt
      have hch2 : ent.children = [(rest.get ⟨k, hklt⟩, S.length + k + 1)] := by
        rw [hch]
        have h5 : (c :: rest).get? (k + 1) = rest.get? k := List.get?_cons_succ
        rw [h5, hnm]
      cases hla : ent.children.lookup a with
      | none =>
        rw [walkChildNone S2 (S.length + k) ent a l2 hge hla] at hw
        exact absurd hw (by simp)
      | some j2 =>
        rw [walkChild S2 (S.length + k) j2 ent a l2 hge hla] at hw
        rw [hch2, lookup_singleton] at hla
        cases haeq : (a == rest.get ⟨k, hklt⟩) with
        | false => rw [haeq] at hla; simp at hla
        | true =>
          rw [haeq, if_pos rfl] at hla
          have hj2 : S.length + k + 1 = j2 := by injection hla
          have ha : a = rest.get ⟨k, hklt⟩ := eq_of_beq haeq
          have hw2 : walk S2 (S.length + (k + 1)) l2 = some j := by
            have h7 : S.length + (k + 1) = j2 := by omega
            rw [h7]
            exact hw
          obtain ⟨t2, hcomps, hle, hj⟩ := ih (k + 1) j (by omega) hw2
          refine ⟨t2 + 1, ?_, by omega, by omega⟩
          have hdropeq : (c :: rest).drop (k + 1) =
              rest.get ⟨k, hklt⟩ :: (c :: rest).drop (k + 1 + 1) := by
            have h1 : (c :: rest).drop (k + 1) = rest.drop k := List.drop_succ_cons
            have h2 : (c :: rest).drop (k + 1 + 1) = rest.drop (k + 1) := List.drop_succ_cons
            rw [h1, h2]
            exact drop_cons_of_lget rest k _ hnm
          rw [hdropeq, List.take_succ_cons, ← hcomps, ha]

theorem spineWalkBack (S : List FSEntity) (pid : Nat) (e : FSEntity) (c : String)
    (rest : List String) (S2 : List FSEntity) (so : SpineOut S pid e c rest S2)
    (hget : S.get? pid = some e)
    (hcb : ∀ i ei, S.get? i = some ei → ∀ pr ∈ ei.children, pr.2 < S.length) :
    ∀ (comps : List String) (i j : Nat), i < S.length → walk S2 i comps = some j →
      j < S.length → walk S i comps = some j := by
  intro comps
  induction comps with
  | nil => intro i j _ hw _; exact hw
  | cons a l2 ih =>
    intro i j hi hw hj
    by_cases hip : i = pid
    · subst hip
      cases hl0 : e.children.lookup a with
      | some j2 =>
        have hl2 : (e.children ++ [(c, S.length)]).lookup a = some j2 :=
          lookup_append_of_some _ _ a j2 hl0
        rw [walkChild S2 i j2 _ a l2 so.atPid hl2] at hw
        have hj2lt : j2 < S.length := hcb i e hget (a, j2) (lookup_mem _ a j2 hl0)
        rw [walkChild S i j2 e a l2 hget hl0]
        exact ih j2 j hj2lt hw hj
      | none =>
        have hl2 := lookup_append_of_none e.children a (c, S.length) hl0
        cases hac : (a == c) with
        | false =>
          rw [hac, if_neg (by simp)] at hl2
          rw [walkChildNone S2 i _ a l2 so.atPid hl2] at hw
          exact absurd hw (by simp)
        | true =>
          rw [hac, if_pos rfl] at hl2
          rw [walkChild S2 i S.length _ a l2 so.atPid hl2] at hw
          have hw0 : walk S2 (S.length + 0) l2 = some j := hw
          obtain ⟨t, _, _, hjval⟩ :=
            spineChainWalkInv S i e c rest S2 so l2 0 j (Nat.zero_le _) hw0
          omega
    · have hge2 : S2.get? i = S.get? i := so.old i hi hip
      cases hgi : S.get? i with
      | none =>
        rw [walkUndef S2 i a l2 (hge2.trans hgi)] at hw
        exact absurd hw (by simp)
      | some ei =>
        cases hl0 : ei.children.lookup a with
        | none =>
          rw [walkChildNone S2 i ei a l2 (hge2.trans hgi) hl0] at hw
          exact absurd hw (by simp)
        | some j2 =>
          rw [walkChild S2 i j2 ei a l2 (hge2.trans hgi) hl0] at hw
          have hj2lt : j2 < S.length := hcb i ei hgi (a, j2) (lookup_mem _ a j2 hl0)
          rw [walkChild S i j2 ei a l2 hgi hl0]
          exact ih j2 j hj2lt hw hj

theorem spineWalkDecomp (S : List FSEntity) (pid : Nat) (e : FSEntity) (c : String)
    (rest : List String) (S2 : List FSEntity) (so : SpineOut S pid e c rest S2)
    (hget : S.get? pid = some e)
    (hcb : ∀ i ei, S.get? i = some ei → ∀ pr ∈ ei.children, pr.2 < S.length) :
    ∀ (comps : List String) (i j : Nat), i < S.length → walk S2 i comps = some j →
      S.length ≤ j →
      ∃ s1 k, k ≤ rest.length ∧ comps = s1 ++ (c :: rest).take (k + 1) ∧
        j = S.length + k ∧ walk S i s1 = some pid := by
  intro comps
  induction comps with
  | nil =>
    intro i j hi hw hj
    rw [walkNil] at hw
    have : i = j := by injection hw
    omega
  | cons a l2 ih =>
    intro i j hi hw hj
    by_cases hip : i = pid
    · subst hip
      cases hl0 : e.children.lookup a with
      | some j2 =>
        have hl2 : (e.children ++ [(c, S.length)]).lookup a = some j2 :=
          lookup_append_of_some _ _ a j2 hl0
        rw [walkChild S2 i j2 _ a l2 so.atPid hl2] at hw
        have hj2lt : j2 < S.length := hcb i e hget (a, j2) (lookup_mem _ a j2 hl0)
        obtain ⟨s1, k, hk, hcomps, hjv, hws⟩ := ih j2 j hj2lt hw hj
        refine ⟨a :: s1, k, hk, ?_, hjv, ?_⟩
        · rw [List.cons_append, hcomps]
        · rw [walkChild S i j2 e a s1 hget hl0]
          exact hws
      | none =>
        have hl2 := lookup_append_of_none e.children a (c, S.length) hl0
        cases hac : (a == c) with
        | false =>
          rw [hac, if_neg (by simp)] at hl2
          rw [walkChildNone S2 i _ a l2 so.atPid hl2] at hw
          exact absurd hw (by simp)
        | true =>
          rw [hac, if_pos rfl] at hl2
          rw [walkChild S2 i S.length _ a l2 so.atPid hl2] at hw
          have hw0 : walk S2 (S.length + 0) l2 = some j := hw
          obtain ⟨t, hl2eq, hle, hjval⟩ :=
            spineChainWalkInv S i e c rest S2 so l2 0 j (Nat.zero_le _) hw0
          have hadrop : ((c :: rest).drop (0 + 1)) = rest := List.drop_succ_cons
          refine ⟨[], t, by omega, ?_, by omega, walkNil S i⟩
          rw [List.nil_append, hl2eq, hadrop]
          have hca : a = c := eq_of_beq hac
          rw [hca, List.take_succ_cons]
    · have hge2 : S2.get? i = S.get? i := so.old i hi hip
      cases hgi : S.get? i with
      | none =>
        rw [walkUndef S2 i a l2 (hge2.trans hgi)] at hw
        exact absurd hw (by simp)
      | some ei =>
        cases hl0 : ei.children.lookup a with
        | none =>
          rw [walkChildNone S2 i ei a l2 (hge2.trans hgi) hl0] at hw
          exact absurd hw (by simp)
        | some j2 =>
          rw [walkChild S2 i j2 ei a l2 (hge2.trans hgi) hl0] at hw
          have hj2lt : j2 < S.length := hcb i ei hgi (a, j2) (lookup_mem _ a j2 hl0)
          obtain ⟨s1, k, hk, hcomps, hjv, hws⟩ := ih j2 j hj2lt hw hj
          refine ⟨a :: s1, k, hk, ?_, hjv, ?_⟩
          · rw [List.cons_append, hcomps]
          · rw [walkChild S i j2 ei a s1 hgi hl0]
            exact hws

theorem descend (S : List FSEntity) (reg : List (List String)) (inv : TreeInv S reg) :
    ∀ (comps s0 : List String) (i0 : Nat) (e0 : FSEntity),
      comps ≠ [] → walk S 0 s0 = some i0 → S.get? i0 = some e0 → e0.directory = true →
      (∀ q ∈ reg, isStem (s0 ++ comps) q = false ∧ isStem q (s0 ++ comps) = false) →
      ∃ s1 c crest d ed, comps = s1 ++ c :: crest ∧ walk S 0 (s0 ++ s1) = some d ∧
        S.get? d = some ed ∧ ed.directory = true ∧ ed.children.lookup c = none ∧
        createFSEntity S i0 comps = createFSEntity S d (c :: crest) := by
  intro comps
  induction comps with
  | nil => intro s0 i0 e0 hne _ _ _ _; exact absurd rfl hne
  | cons a rest0 ih =>
    intro s0 i0 e0 _ hws hge hdir hsep
    cases hlk : e0.children.lookup a with
    | none =>
      exact ⟨[], a, rest0, i0, e0, rfl, by rw [List.append_nil]; exact hws, hge, hdir, hlk,
        rfl⟩
    | some child =>
      have hwalkc : walk S 0 (s0 ++ [a]) = some child := by
        rw [walk_append, hws]
        show walk S i0 [a] = some child
        rw [walkChild S i0 child e0 a [] hge hlk, walkNil]
      obtain ⟨ec, hgc⟩ := inv.valid (s0 ++ [a]) child hwalkc
      cases hdc : ec.directory with
      | false =>
        exfalso
        have hmem : (s0 ++ [a]) ∈ reg := inv.leaves (s0 ++ [a]) child ec hwalkc hgc hdc
        have hfalse := (hsep (s0 ++ [a]) hmem).2
        have htrue : isStem (s0 ++ [a]) (s0 ++ a :: rest0) = true := by
          rw [isStem_append_both, isStem, beq_self_eq_true, Bool.true_and]
          rfl
        rw [hfalse] at htrue
        exact absurd htrue (by simp)
      | true =>
        cases rest0 with
        | nil =>
          exfalso
          have hne2 : (s0 ++ [a]) ≠ [] := by simp
          obtain ⟨q, hq, hstem, _⟩ := inv.dirs (s0 ++ [a]) child ec hne2 hwalkc hgc hdc
          rw [(hsep q hq).1] at hstem
          exact absurd hstem (by simp)
        | cons b rest1 =>
          have hsep2 : ∀ q ∈ reg, isStem ((s0 ++ [a]) ++ b :: rest1) q = false ∧
              isStem q ((s0 ++ [a]) ++ b :: rest1) = false := by
            intro q hq
            have h10 : (s0 ++ [a]) ++ b :: rest1 = s0 ++ a :: b :: rest1 := by simp
            rw [h10]
            exact hsep q hq
          obtain ⟨s1, c, crest, d, ed, hc1, hw1, hg1, hd1, hlk1, heq1⟩ :=
            ih (s0 ++ [a]) child ec (by simp) hwalkc hgc hdc hsep2
          refine ⟨a :: s1, c, crest, d, ed, ?_, ?_, hg1, hd1, hlk1, ?_⟩
          · rw [hc1]
            rfl
          · have h9 : (s0 ++ [a]) ++ s1 = s0 ++ a :: s1 := by simp
            rw [← h9]
            exact hw1
          · rw [cfeExisting S i0 child e0 a (b :: rest1) hge hdir hlk]
            exact heq1

theorem regStep (S : List FSEntity) (reg : List (List String)) (p : List String)
    (inv : TreeInv S reg) (hp : p ≠ [])
    (hsep : ∀ q ∈ reg, isStem p q = false ∧ isStem q p = false) :
    ∃ S2 inew, createFSEntity S 0 p = (S2, some inew) ∧
      TreeInv S2 (reg ++ [p]) ∧
      walk S2 0 p = some inew ∧
      (∃ ef, S2.get? inew = some ef ∧ ef.directory = false) ∧
      (∀ q j, walk S 0 q = some j → walk S2 0 q = some j) ∧
      (∀ j ej, S.get? j = some ej →
        ∃ ej2, S2.get? j = some ej2 ∧ ej2.directory = ej.directory) := by
  obtain ⟨eroot, hg0, hpar0, hdir0⟩ := inv.rootOk
  obtain ⟨s1, c, crest, d, ed, hP, hwd0, hgd, hdd, hlkc, heqC⟩ :=
    descend S reg inv p [] 0 eroot hp (walkNil S 0) hg0 hdir0 hsep
  have hwd : walk S 0 s1 = some d := by
    rw [← List.nil_append s1]
    exact hwd0
  obtain ⟨S2, heqS, so⟩ := spine crest S d ed c hgd hdd hlkc
  have hbase : 0 < S.length := lget_some_lt S 0 eroot hg0
  have hdlt : d < S.length := lget_some_lt S d ed hgd
  have hcb := inv.bounds
  have hback := spineWalkBack S d ed c crest S2 so hgd hcb
  have hdec := spineWalkDecomp S d ed c crest S2 so hgd hcb
  have hpres := spineWalkPres S d ed c crest S2 so hgd
  have hlen2 : S2.length = S.length + crest.length + 1 := so.len
  -- the walk of the new path lands on the final chain node
  have hwd2 : walk S2 0 s1 = some d := hpres s1 0 d hwd
  have hstep : walk S2 d (c :: crest) = some (S.length + crest.length) := by
    have hl2 : (ed.children ++ [(c, S.length)]).lookup c = some S.length := by
      rw [lookup_append_of_none ed.children c (c, S.length) hlkc]
      simp
    rw [walkChild S2 d S.length _ c crest so.atPid hl2]
    have h0 := spineChainWalk S d ed c crest S2 so crest.length 0 (by omega)
    exact h0
  have hwp2 : walk S2 0 p = some (S.length + crest.length) := by
    rw [hP, walk_append, hwd2]
    exact hstep
  -- the final chain node is a leaf
  obtain ⟨entL, hgeL, _, hdiL, _, _, _, _⟩ := so.chain crest.length (Nat.le_refl _)
  have hleafL : entL.directory = false := by
    rw [hdiL]
    simp
  -- the new entity created by the walk
  refine ⟨S2, S.length + crest.length, ?_, ?_, hwp2, ⟨entL, hgeL, hleafL⟩, ?_, ?_⟩
  · rw [heqC, heqS]
  · constructor
    · -- rootOk
      by_cases h0d : 0 = d
      · refine ⟨_, h0d ▸ so.atPid, ?_, ?_⟩
        · show ed.parent = none
          rw [← h0d] at hgd
          rw [hgd] at hg0
          have hh2 : eroot = ed := by injection hg0 with hh; exact hh.symm
          rw [← hh2]
          exact hpar0
        · exact hdd
      · exact ⟨eroot, (so.old 0 hbase h0d).trans hg0, hpar0, hdir0⟩
    · -- bounds
      intro i ei2 hgi2 pr hpr
      by_cases hid : i < S.length
      · by_cases hidd : i = d
        · have hgi3 : S2.get? i = some { ed with children := ed.children ++ [(c, S.length)] } :=
            hidd ▸ so.atPid
          rw [hgi3] at hgi2
          have hei2 : { ed with children := ed.children ++ [(c, S.length)] } = ei2 := by
            injection hgi2
          rw [← hei2] at hpr
          rcases List.mem_append.mp hpr with hl | hr
          · have := hcb d ed hgd pr hl
            omega
          · have : pr = (c, S.length) := by simpa using hr
            rw [this]
            omega
        · have hgi3 : S2.get? i = S.get? i := so.old i hid hidd
          rw [hgi3] at hgi2
          have := hcb i ei2 hgi2 pr hpr
          omega
      · have hilt : i < S2.length := lget_some_lt S2 i ei2 hgi2
        have hk : i - S.length ≤ crest.length := by omega
        obtain ⟨ent, hge, _, _, _, hch, _, _⟩ := so.chain (i - S.length) hk
        have hieq : S.length + (i - S.length) = i := by omega
        rw [hieq] at hge
        have hent : ent = ei2 := by
          rw [hge] at hgi2
          injection hgi2
        rw [← hent] at hpr
        rw [hch] at hpr
        cases hq : (c :: crest).get? (i - S.length + 1) with
        | none => rw [hq] at hpr; exact absurd hpr (by simp)
        | some nm =>
          rw [hq] at hpr
          have hpr2 : pr = (nm, S.length + (i - S.length) + 1) := by simpa using hpr
          have hlt2 := lget_some_lt _ _ _ hq
          rw [List.length_cons] at hlt2
          rw [hpr2]
          omega
    · -- valid
      intro segs j hw
      by_cases hjlt : j < S.length
      · have hwS := hback segs 0 j hbase hw hjlt
        by_cases hjd : j = d
        · exact ⟨_, hjd ▸ so.atPid⟩
        · obtain ⟨ejS, hget2⟩ := inv.valid segs j hwS
          exact ⟨ejS, (so.old j hjlt hjd).trans hget2⟩
      · obtain ⟨s1x, k, hk, _, hjv, _⟩ := hdec segs 0 j hbase hw (by omega)
        obtain ⟨ent, hge, _⟩ := so.chain k hk
        exact ⟨ent, hjv ▸ hge⟩
    · -- uniq
      intro sa sb j ha hb
      by_cases hjlt : j < S.length
      · exact inv.uniq sa sb j (hback sa 0 j hbase ha hjlt) (hback sb 0 j hbase hb hjlt)
      · obtain ⟨s1a, ka, hka, hca, hja, hwa⟩ := hdec sa 0 j hbase ha (by omega)
        obtain ⟨s1b, kb, hkb, hcbx, hjb, hwb⟩ := hdec sb 0 j hbase hb (by omega)
        have hkk : ka = kb := by omega
        have hss : s1a = s1b := inv.uniq s1a s1b d hwa hwb
        rw [hca, hcbx, hkk, hss]
    · -- leaves
      intro segs j ej hw hg hd2
      by_cases hjlt : j < S.length
      · have hwS := hback segs 0 j hbase hw hjlt
        by_cases hjd : j = d
        · exfalso
          have hgd2 : S2.get? j = some { ed with children := ed.children ++ [(c, S.length)] } :=
            hjd ▸ so.atPid
          rw [hg] at hgd2
          have hej : ej = { ed with children := ed.children ++ [(c, S.length)] } := by
            injection hgd2
          have : ej.directory = true := by rw [hej]; exact hdd
          rw [hd2] at this
          exact absurd this (by simp)
        · have hgS : S.get? j = some ej := by
            rw [← so.old j hjlt hjd]
            exact hg
          exact List.mem_append_left _ (inv.leaves segs j ej hwS hgS hd2)
      · obtain ⟨s1x, k, hk, hcomps, hjv, hws1⟩ := hdec segs 0 j hbase hw (by omega)
        obtain ⟨ent, hge, _, hdi, _, _, _, _⟩ := so.chain k hk
        have hent : ent = ej := by
          rw [hjv] at hg
          rw [hge] at hg
          injection hg
        have hkm : k = crest.length := by
          by_contra hkm2
          have hklt : k < crest.length := by omega
          have hdt : ent.directory = true := by
            rw [hdi]
            simp
            omega
          rw [hent, hd2] at hdt
          exact absurd hdt (by simp)
        have hs1 : s1x = s1 := inv.uniq s1x s1 d hws1 hwd
        have htake : (c :: crest).take (crest.length + 1) = c :: crest := by
          have : crest.length + 1 = (c :: crest).length := by rw [List.length_cons]
          rw [this, List.take_length]
        rw [hcomps, hkm, htake, hs1, ← hP]
        exact List.mem_append_right _ (by simp)
    · -- dirs
      intro segs j ej hne hw hg hd2
      by_cases hjlt : j < S.length
      · have hwS := hback segs 0 j hbase hw hjlt
        by_cases hjd : j = d
        · obtain ⟨q, hq, hst, hqne⟩ := inv.dirs segs j ed hne hwS (hjd ▸ hgd) hdd
          exact ⟨q, List.mem_append_left _ hq, hst, hqne⟩
        · have hgS : S.get? j = some ej := by
            rw [← so.old j hjlt hjd]
            exact hg
          obtain ⟨q, hq, hst, hqne⟩ := inv.dirs segs j ej hne hwS hgS hd2
          exact ⟨q, List.mem_append_left _ hq, hst, hqne⟩
      · obtain ⟨s1x, k, hk, hcomps, hjv, hws1⟩ := hdec segs 0 j hbase hw (by omega)
        obtain ⟨ent, hge, _, hdi, _, _, _, _⟩ := so.chain k hk
        have hent : ent = ej := by
          rw [hjv] at hg
          rw [hge] at hg
          injection hg
        have hklt : k < crest.length := by
          by_contra hklt2
          have hkm : k = crest.length := by omega
          have hdf : ent.directory = false := by
            rw [hdi, hkm]
            simp
          rw [hent, hd2] at hdf
          exact absurd hdf (by simp)
        have hs1 : s1x = s1 := inv.uniq s1x s1 d hws1 hwd
        refine ⟨p, List.mem_append_right _ (by simp), ?_, ?_⟩
        · rw [hcomps, hs1, hP, isStem_append_both]
          exact isStem_take (c :: crest) (k + 1)
        · intro hcontra
          have hlen_t : ((c :: crest).take (k + 1)).length = k + 1 := by
            rw [List.length_take, List.length_cons]
            omega
          rw [hcomps, hs1, hP] at hcontra
          have := congrArg List.length hcontra
          rw [List.length_append, List.length_append, hlen_t, List.length_cons] at this
          omega
    · -- regOk
      intro q hq
      rcases List.mem_append.mp hq with hqa | hqb
      · obtain ⟨j, ejq, hwq, hgq, hdq⟩ := inv.regOk q hqa
        have hjlt := lget_some_lt S j ejq hgq
        have hjd : j ≠ d := by
          intro h
          rw [h, hgd] at hgq
          have hh : ed = ejq := by injection hgq
          rw [← hh, hdd] at hdq
          exact absurd hdq (by simp)
        exact ⟨j, ejq, hpres q 0 j hwq, (so.old j hjlt hjd).trans hgq, hdq⟩
      · have hqp : q = p := by simpa using hqb
        subst hqp
        exact ⟨S.length + crest.length, entL, hwp2, hgeL, hleafL⟩
  · -- walk preservation
    intro q j h
    exact hpres q 0 j h
  · -- directory-flag preservation
    intro j ej hj
    by_cases hjd : j = d
    · refine ⟨{ ed with children := ed.children ++ [(c, S.length)] }, hjd ▸ so.atPid, ?_⟩
      show ed.directory = ej.directory
      rw [hjd, hgd] at hj
      have : ed = ej := by injection hj
      rw [this]
    · have hjlt := lget_some_lt S j ej hj
      exact ⟨ej, (so.old j hjlt hjd).trans hj, rfl⟩


theorem registerAll_cons (w : Website) (pth : String)
    (doc : Option (List String × List String))
    (rest : List (String × Option (List String × List String))) :
    registerAll w ((pth, doc) :: rest) =
      ((registerAll ⟨docApply (newFSEntity w.store (prepareFileName pth)) doc⟩ rest).1,
        (newFSEntity w.store (prepareFileName pth)).2 ::
          (registerAll ⟨docApply (newFSEntity w.store (prepareFileName pth)) doc⟩ rest).2) :=
  rfl

theorem docApply_file (r : List FSEntity × Option Nat) : docApply r none = r.1 := rfl

theorem docApply_doc (hrefs idocc : List String) (S2 : List FSEntity) (i : Nat) :
    docApply (S2, some i) (some (hrefs, idocc)) =
      updateEntity S2 i fun e =>
        { e with hrefs := e.hrefs ++ hrefs, ids := idocc.foldl bumpId e.ids } := rfl

theorem updateEntity_length (S : List FSEntity) (i : Nat) (g : FSEntity → FSEntity) :
    (updateEntity S i g).length = S.length := by
  unfold updateEntity
  cases h : S.get? i with
  | none => rfl
  | some e => exact List.length_set S i (g e)

theorem updateEntity_get (S : List FSEntity) (i : Nat) (g : FSEntity → FSEntity) (j : Nat) :
    (updateEntity S i g).get? j = if j = i then (S.get? i).map g else S.get? j := by
  unfold updateEntity
  cases h : S.get? i with
  | none =>
    by_cases hj : j = i
    · rw [if_pos hj, hj, h]
      rfl
    · rw [if_neg hj]
  | some e =>
    by_cases hj : j = i
    · rw [if_pos hj, hj]
      exact lget_set_eq S i (g e) (lget_some_lt S i e h)
    · rw [if_neg hj]
      exact lget_set_ne S i j (g e) (fun hh => hj hh.symm)

theorem updateEntity_dirPres (S : List FSEntity) (i : Nat) (g : FSEntity → FSEntity)
    (hdir : ∀ e, (g e).directory = e.directory) :
    ∀ j ej, S.get? j = some ej →
      ∃ ej2, (updateEntity S i g).get? j = some ej2 ∧ ej2.directory = ej.directory := by
  intro j ej hj
  by_cases hji : j = i
  · refine ⟨g ej, ?_, hdir ej⟩
    rw [updateEntity_get, if_pos hji, ← hji, hj]
    rfl
  · exact ⟨ej, by rw [updateEntity_get, if_neg hji]; exact hj, rfl⟩

theorem walk_updateEntity (S : List FSEntity) (i : Nat) (g : FSEntity → FSEntity)
    (hch : ∀ e, (g e).children = e.children) :
    ∀ (comps : List String) (x : Nat),
      walk (updateEntity S i g) x comps = walk S x comps := by
  intro comps
  induction comps with
  | nil => intro x; rw [walkNil, walkNil]
  | cons a l2 ih =>
    intro x
    by_cases hx : x = i
    · cases hg : S.get? x with
      | none =>
        have hg2 : (updateEntity S i g).get? x = none := by
          rw [updateEntity_get, if_pos hx, ← hx, hg]
          rfl
        rw [walkUndef _ x a l2 hg2, walkUndef S x a l2 hg]
      | some e =>
        have hg2 : (updateEntity S i g).get? x = some (g e) := by
          rw [updateEntity_get, if_pos hx, ← hx, hg]
          rfl
        cases hl : e.children.lookup a with
        | none =>
          have hl2 : (g e).children.lookup a = none := by rw [hch e]; exact hl
          rw [walkChildNone _ x (g e) a l2 hg2 hl2, walkChildNone S x e a l2 hg hl]
        | some j2 =>
          have hl2 : (g e).children.lookup a = some j2 := by rw [hch e]; exact hl
          rw [walkChild _ x j2 (g e) a l2 hg2 hl2, walkChild S x j2 e a l2 hg hl]
          exact ih j2
    · have hg2 : (updateEntity S i g).get? x = S.get? x := by
        rw [updateEntity_get, if_neg hx]
      cases hg : S.get? x with
      | none => rw [walkUndef _ x a l2 (hg2.trans hg), walkUndef S x a l2 hg]
      | some e =>
        cases hl : e.children.lookup a with
        | none =>
          rw [walkChildNone _ x e a l2 (hg2.trans hg) hl, walkChildNone S x e a l2 hg hl]
        | some j2 =>
          rw [walkChild _ x j2 e a l2 (hg2.trans hg) hl, walkChild S x j2 e a l2 hg hl]
          exact ih j2

theorem treeInv_updateEntity (S : List FSEntity) (reg : List (List String)) (i : Nat)
    (g : FSEntity → FSEntity)
    (hch : ∀ e, (g e).children = e.children)
    (hdir : ∀ e, (g e).directory = e.directory)
    (hpar : ∀ e, (g e).parent = e.parent)
    (inv : TreeInv S reg) : TreeInv (updateEntity S i g) reg := by
  have hwalk := walk_updateEntity S i g hch
  constructor
  · obtain ⟨e, hg, hp, hd⟩ := inv.rootOk
    by_cases h0 : (0 : Nat) = i
    · refine ⟨g e, ?_, ?_, ?_⟩
      · rw [updateEntity_get, if_pos h0, ← h0, hg]
        rfl
      · rw [hpar e]; exact hp
      · rw [hdir e]; exact hd
    · refine ⟨e, ?_, hp, hd⟩
      rw [updateEntity_get, if_neg h0]
      exact hg
  · intro j ej hj pr hpr
    rw [updateEntity_get] at hj
    rw [updateEntity_length]
    by_cases hji : j = i
    · rw [if_pos hji] at hj
      cases hg : S.get? i with
      | none => rw [hg] at hj; exact absurd hj (by simp)
      | some e =>
        rw [hg] at hj
        have hej : g e = ej := by injection hj
        rw [← hej, hch e] at hpr
        exact inv.bounds i e hg pr hpr
    · rw [if_neg hji] at hj
      exact inv.bounds j ej hj pr hpr
  · intro segs j hw
    rw [hwalk] at hw
    obtain ⟨e, hg⟩ := inv.valid segs j hw
    by_cases hji : j = i
    · refine ⟨g e, ?_⟩
      rw [updateEntity_get, if_pos hji, ← hji, hg]
      rfl
    · refine ⟨e, ?_⟩
      rw [updateEntity_get, if_neg hji]
      exact hg
  · intro s1 s2 j h1 h2
    rw [hwalk] at h1 h2
    exact inv.uniq s1 s2 j h1 h2
  · intro segs j ej hw hg hd2
    rw [hwalk] at hw
    rw [updateEntity_get] at hg
    by_cases hji : j = i
    · rw [if_pos hji] at hg
      cases hgS : S.get? i with
      | none => rw [hgS] at hg; exact absurd hg (by simp)
      | some e =>
        rw [hgS] at hg
        have hej : g e = ej := by injection hg
        have hde : e.directory = false := by rw [← hdir e, hej]; exact hd2
        exact inv.leaves segs j e hw (hji ▸ hgS) hde
    · rw [if_neg hji] at hg
      exact inv.leaves segs j ej hw hg hd2
  · intro segs j ej hne hw hg hd2
    rw [hwalk] at hw
    rw [updateEntity_get] at hg
    by_cases hji : j = i
    · rw [if_pos hji] at hg
      cases hgS : S.get? i with
      | none => rw [hgS] at hg; exact absurd hg (by simp)
      | some e =>
        rw [hgS] at hg
        have hej : g e = ej := by injection hg
        have hde : e.directory = true := by rw [← hdir e, hej]; exact hd2
        exact inv.dirs segs j e hne hw (hji ▸ hgS) hde
    · rw [if_neg hji] at hg
      exact inv.dirs segs j ej hne hw hg hd2
  · intro q hq
    obtain ⟨j, e, hw, hg, hd⟩ := inv.regOk q hq
    by_cases hji : j = i
    · refine ⟨j, g e, ?_, ?_, ?_⟩
      · rw [hwalk]; exact hw
      · rw [updateEntity_get, if_pos hji, ← hji, hg]
        rfl
      · rw [hdir e]; exact hd
    · refine ⟨j, e, ?_, ?_, hd⟩
      · rw [hwalk]; exact hw
      · rw [updateEntity_get, if_neg hji]
        exact hg

theorem registerSeq : ∀ (rs : List (String × Option (List String × List String)))
    (S : List FSEntity) (reg : List (List String)),
    TreeInv S reg →
    (∀ r ∈ rs, ∀ q ∈ reg, isStem (splitSlash (prepareFileName r.1)) q = false ∧
      isStem q (splitSlash (prepareFileName r.1)) = false) →
    List.Pairwise (fun a b =>
      isStem (splitSlash (prepareFileName a.1)) (splitSlash (prepareFileName b.1)) = false ∧
      isStem (splitSlash (prepareFileName b.1)) (splitSlash (prepareFileName a.1)) = false) rs →
    (∀ q j, walk S 0 q = some j →
      walk (registerAll ⟨S⟩ rs).1.store 0 q = some j) ∧
    (∀ j ej, S.get? j = some ej →
      ∃ ej2, (registerAll ⟨S⟩ rs).1.store.get? j = some ej2 ∧
        ej2.directory = ej.directory) ∧
    (∀ k, (hk : k < rs.length) →
      ∃ i, (registerAll ⟨S⟩ rs).2.get? k = some (some i) ∧
        walk (registerAll ⟨S⟩ rs).1.store 0
          (splitSlash (prepareFileName (rs.get ⟨k, hk⟩).1)) = some i ∧
        ∃ ef, (registerAll ⟨S⟩ rs).1.store.get? i = some ef ∧ ef.directory = false) := by
  intro rs
  induction rs with
  | nil =>
    intro S reg inv _ _
    refine ⟨fun q j h => h, fun j ej h => ⟨ej, h, rfl⟩, fun k hk => absurd hk (by simp)⟩
  | cons r rs2 ih =>
    obtain ⟨p, doc⟩ := r
    intro S reg inv hsep0 hpw
    have hpne : splitSlash (prepareFileName p) ≠ [] := splitSlashAux_ne_nil _ _
    obtain ⟨S2, inew, heqC, inv2, hwp, hleaf, hpres1, hdir1⟩ :=
      regStep S reg (splitSlash (prepareFileName p)) inv hpne
        (hsep0 (p, doc) (List.mem_cons_self _ _))
    have hnew : newFSEntity (Website.mk S).store (prepareFileName p) = (S2, some inew) := by
      show createFSEntity S 0 (splitSlash (prepareFileName p)) = (S2, some inew)
      exact heqC
    have hS3 : TreeInv (docApply (S2, some inew) doc)
          (reg ++ [splitSlash (prepareFileName p)]) ∧
        walk (docApply (S2, some inew) doc) 0 (splitSlash (prepareFileName p)) = some inew ∧
        (∃ ef, (docApply (S2, some inew) doc).get? inew = some ef ∧ ef.directory = false) ∧
        (∀ q j, walk S2 0 q = some j → walk (docApply (S2, some inew) doc) 0 q = some j) ∧
        (∀ j ej, S2.get? j = some ej →
          ∃ ej2, (docApply (S2, some inew) doc).get? j = some ej2 ∧
            ej2.directory = ej.directory) := by
      cases doc with
      | none =>
        rw [docApply_file]
        exact ⟨inv2, hwp, hleaf, fun q j h => h, fun j ej h => ⟨ej, h, rfl⟩⟩
      | some hd =>
        obtain ⟨hrefs2, idocc⟩ := hd
        rw [docApply_doc]
        refine ⟨treeInv_updateEntity S2 (reg ++ [splitSlash (prepareFileName p)]) inew
            (fun e => { e with hrefs := e.hrefs ++ hrefs2, ids := idocc.foldl bumpId e.ids })
            (fun e => rfl) (fun e => rfl) (fun e => rfl) inv2,
          ?_, ?_, ?_, ?_⟩
        · rw [walk_updateEntity S2 inew
            (fun e => { e with hrefs := e.hrefs ++ hrefs2, ids := idocc.foldl bumpId e.ids })
            (fun e => rfl)]
          exact hwp
        · obtain ⟨ef, hgef, hdf⟩ := hleaf
          obtain ⟨ef2, hg2, hd2⟩ := updateEntity_dirPres S2 inew
            (fun e => { e with hrefs := e.hrefs ++ hrefs2, ids := idocc.foldl bumpId e.ids })
            (fun e => rfl) inew ef hgef
          exact ⟨ef2, hg2, hd2.trans hdf⟩
        · intro q j h
          rw [walk_updateEntity S2 inew
            (fun e => { e with hrefs := e.hrefs ++ hrefs2, ids := idocc.foldl bumpId e.ids })
            (fun e => rfl)]
          exact h
        · intro j ej h
          exact updateEntity_dirPres S2 inew
            (fun e => { e with hrefs := e.hrefs ++ hrefs2, ids := idocc.foldl bumpId e.ids })
            (fun e => rfl) j ej h
    obtain ⟨inv3, hwp3, hleaf3, hpres2, hdir2⟩ := hS3
    have hreg : registerAll ⟨S⟩ ((p, doc) :: rs2) =
        ((registerAll ⟨docApply (S2, some inew) doc⟩ rs2).1,
          some inew :: (registerAll ⟨docApply (S2, some inew) doc⟩ rs2).2) := by
      rw [registerAll_cons, hnew]
    obtain ⟨hhead, htail⟩ := List.pairwise_cons.mp hpw
    have hsep2 : ∀ r2 ∈ rs2, ∀ q ∈ reg ++ [splitSlash (prepareFileName p)],
        isStem (splitSlash (prepareFileName r2.1)) q = false ∧
        isStem q (splitSlash (prepareFileName r2.1)) = false := by
      intro r2 hr2 q hq
      rcases List.mem_append.mp hq with hqa | hqb
      · exact hsep0 r2 (List.mem_cons_of_mem _ hr2) q hqa
      · have hqp : q = splitSlash (prepareFileName p) := by simpa using hqb
        subst hqp
        exact ⟨(hhead r2 hr2).2, (hhead r2 hr2).1⟩
    obtain ⟨ihpres, ihdir, ihidx⟩ :=
      ih (docApply (S2, some inew) doc) (reg ++ [splitSlash (prepareFileName p)])
        inv3 hsep2 htail
    refine ⟨?_, ?_, ?_⟩
    · intro q j h
      rw [hreg]
      exact ihpres q j (hpres2 q j (hpres1 q j h))
    · intro j ej h
      obtain ⟨ej2, h2, hd⟩ := hdir1 j ej h
      obtain ⟨ej3, h3, hd3⟩ := hdir2 j ej2 h2
      obtain ⟨ej4, h4, hd4⟩ := ihdir j ej3 h3
      rw [hreg]
      exact ⟨ej4, h4, (hd4.trans hd3).trans hd⟩
    · intro k hk
      cases k with
      | zero =>
        obtain ⟨ef, hgef, hdf⟩ := hleaf3
        obtain ⟨ef2, hgef2, hdeq⟩ := ihdir inew ef hgef
        rw [hreg]
        exact ⟨inew, rfl, ihpres _ inew hwp3, ef2, hgef2, hdeq.trans hdf⟩
      | succ k2 =>
        have hk2 : k2 < rs2.length := by
          rw [List.length_cons] at hk
          omega
        obtain ⟨i, hg, hw, hex⟩ := ihidx k2 hk2
        rw [hreg]
        exact ⟨i, hg, hw, hex⟩

/-- C2 (amended): registering a list of requests on a fresh website — each
request either an `AddFile` call (`(path, none)`) or an
`AddDocumentFromReader` call (`(path, some (hrefs, idOccurrences))`, with
its parsed references and id occurrences) — where each path (after the
leading-slash strip) splits into non-empty segments, contains no `".."`
segment, and no path's segment list is an initial segment of another's,
makes every registered path resolve: walking `isPathValid` from the root
over `splitPath` of that exact path returns precisely the node that the
request's own `newFSEntity` call produced at registration time. -/
theorem claim2_register_resolve (rs : List (String × Option (List String × List String)))
    (hgood : ∀ r ∈ rs, splitSlash (prepareFileName r.1) = splitPath r.1 ∧
      ".." ∉ splitPath r.1)
    (hsep : List.Pairwise (fun a b => isStem (splitPath a.1) (splitPath b.1) = false ∧
      isStem (splitPath b.1) (splitPath a.1) = false) rs)
    (k : Nat) (hk : k < rs.length) :
    ∃ i, (registerAll websiteNew rs).2.get? k = some (some i) ∧
      isPathValid (registerAll websiteNew rs).1.store (some 0)
        (splitPath (rs.get ⟨k, hk⟩).1) = some i := by
  have hpw2 : List.Pairwise (fun a b =>
      isStem (splitSlash (prepareFileName a.1)) (splitSlash (prepareFileName b.1)) = false ∧
      isStem (splitSlash (prepareFileName b.1)) (splitSlash (prepareFileName a.1)) = false)
      rs := by
    refine List.Pairwise.imp_of_mem ?_ hsep
    intro a b ha hb hr
    rw [(hgood a ha).1, (hgood b hb).1]
    exact hr
  obtain ⟨_, _, hidx⟩ := registerSeq rs websiteNew.store [] treeInv_init
    (by intro r _ q hq; exact absurd hq (by simp)) hpw2
  obtain ⟨i, hg, hw, ef, hgef, hdf⟩ := hidx k hk
  have hmem : rs.get ⟨k, hk⟩ ∈ rs := List.get_mem rs k hk
  have hnm : ".." ∉ splitSlash (prepareFileName (rs.get ⟨k, hk⟩).1) := by
    rw [(hgood _ hmem).1]
    exact (hgood _ hmem).2
  refine ⟨i, hg, ?_⟩
  rw [← (hgood _ hmem).1]
  exact walk_to_isPathValid _ _ 0 i ef hnm hw hgef hdf

theorem claim2_witness :
    (registerAll websiteNew [("blog/index.html", some (["/style.css"], ["top"])),
      ("/style.css", none)]).2.get? 1 = some (some 3) ∧
    isPathValid (registerAll websiteNew [("blog/index.html", some (["/style.css"], ["top"])),
      ("/style.css", none)]).1.store (some 0) (splitPath "/style.css") = some 3 := by
  obtain ⟨i, h1, h2⟩ := claim2_register_resolve
    [("blog/index.html", some (["/style.css"], ["top"])), ("/style.css", none)]
    (by decide) (by decide) 1 (by decide)
  have h3 : (registerAll websiteNew [("blog/index.html", some (["/style.css"], ["top"])),
      ("/style.css", none)]).2.get? 1 = some (some 3) := by decide
  rw [h1] at h3
  have h4 : i = 3 := by
    injection h3 with hh
    injection hh
  subst h4
  exact ⟨h1, h2⟩

/-- C2 counterexample: the request sets `{"a/"}` and `{"../x"}` (each one
`AddFile` call) are pairwise distinct with no segment-wise proper-prefix
pair, yet resolving the exact registered path fails instead of returning the
created entity: registration keeps the empty segment of `"a/"` (building
directory `"a"` with a leaf named `""`, entity 2) while `splitPath` discards
it, and a `".."` segment is consumed as parent traversal by `isPathValid`
(failing at the parentless root) while registration creates a child
literally named `".."`. -/
theorem claim2_counterexample :
    (registerAll websiteNew [("a/", none)]).2.get? 0 = some (some 2) ∧
    isPathValid (registerAll websiteNew [("a/", none)]).1.store (some 0) (splitPath "a/") =
      none ∧
    (registerAll websiteNew [("../x", none)]).2.get? 0 = some (some 2) ∧
    isPathValid (registerAll websiteNew [("../x", none)]).1.store (some 0)
      (splitPath "../x") = none := by
  decide
